import Mathlib

/-!
# Verification of the burrow streaming-encryption core

Shallow embedding of the burrow repository's chunked AEAD stream codec
(`internal/enc/aead.go`), parameter construction (`NewAEADParams`), the
envelope opening path (`internal/upload` / `internal/envelope`), the
download decompress stage (`internal/download/download.go`) and the
adaptive compressor (package `archive`/`compress`, `adaptiveCompressor`).

Bytes are modelled as `Nat` (values below 256 where produced by the code);
byte streams are `List Nat`.  Go `int` values that the code compares
against zero are modelled as `Int`.  The external cryptographic
primitives (XChaCha20-Poly1305 from golang.org/x/crypto, zstd, age) are
not part of this repository; they are modelled by executable stand-ins
that satisfy the primitives' documented contracts (see the doc comments
of `sealAEAD`, `openAEAD` below), while SHA-256 is embedded in full.
-/

/-- Little-endian encoding of `v` into `k` bytes, exactly as Go's
`binary.LittleEndian.PutUint32/PutUint64` behave on a `k`-byte slice:
the value is implicitly truncated to `2^(8*k)`. -/
def leEnc : Nat → Nat → List Nat
  | 0, _ => []
  | k + 1, v => v % 256 :: leEnc k (v / 256)

/-- Little-endian decoding of a byte list, as Go's
`binary.LittleEndian.Uint32` on a 4-byte slice. -/
def leDec : List Nat → Nat
  | [] => 0
  | b :: bs => b + 256 * leDec bs

theorem leEnc_length (k v : Nat) : (leEnc k v).length = k := by
  induction k generalizing v with
  | zero => rfl
  | succ k ih => simp [leEnc, ih]

theorem leDec_leEnc (k v : Nat) : leDec (leEnc k v) = v % 2 ^ (8 * k) := by
  induction k generalizing v with
  | zero => simp [leEnc, leDec, Nat.mod_one]
  | succ k ih =>
      have h256 : (2 : Nat) ^ (8 * (k + 1)) = 256 * 2 ^ (8 * k) := by
        rw [Nat.mul_add, Nat.pow_add, Nat.mul_comm]
      rw [leEnc, leDec, ih, h256]
      have h1 : v % (256 * 2 ^ (8 * k)) % 256 = v % 256 :=
        Nat.mod_mul_right_mod v 256 (2 ^ (8 * k))
      have h2 : v % (256 * 2 ^ (8 * k)) / 256 = v / 256 % 2 ^ (8 * k) :=
        Nat.mod_mul_right_div_self v 256 (2 ^ (8 * k))
      generalize v % (256 * 2 ^ (8 * k)) = n at h1 h2
      generalize v / 256 % 2 ^ (8 * k) = t at h2
      omega

theorem leDec_leEnc_of_lt {k v : Nat} (h : v < 2 ^ (8 * k)) :
    leDec (leEnc k v) = v := by
  rw [leDec_leEnc, Nat.mod_eq_of_lt h]

/-- UTF-8 encoding of a single Unicode code point. -/
def utf8EncodeCodePoint (c : Nat) : List Nat :=
  if c < 0x80 then [c]
  else if c < 0x800 then
    [0xC0 ||| (c >>> 6), 0x80 ||| (c &&& 0x3F)]
  else if c < 0x10000 then
    [0xE0 ||| (c >>> 12), 0x80 ||| ((c >>> 6) &&& 0x3F), 0x80 ||| (c &&& 0x3F)]
  else
    [0xF0 ||| (c >>> 18), 0x80 ||| ((c >>> 12) &&& 0x3F),
      0x80 ||| ((c >>> 6) &&& 0x3F), 0x80 ||| (c &&& 0x3F)]

/-- UTF-8 bytes of a string, as Go obtains with `[]byte(s)` /
`WriteString`. -/
def utf8Bytes (s : String) : List Nat :=
  (s.data.map (fun c => utf8EncodeCodePoint c.toNat)).flatten

/-! ## Model of the external XChaCha20-Poly1305 AEAD

The repository calls `chacha20poly1305.NewX(dataKey)` and then
`aead.Seal(nil, nonce, pt, aad)` / `aead.Open(nil, nonce, ct, aad)`.
That primitive is external to the repository, so it is modelled here by
an executable stand-in with the primitive's interface contract:

* `sealAEAD key nonce aad pt` returns `ciphertext ++ tag` where the
  ciphertext is `pt` XOR-ed with a keystream determined by `(key, nonce)`
  and the 16-byte tag authenticates `(key, nonce, aad, ciphertext)`;
* `openAEAD` recomputes the tag over the received ciphertext and
  succeeds exactly when it matches, returning the decrypted plaintext.

In the model the tag detects every single-byte change of the ciphertext
(XChaCha20-Poly1305 guarantees this only with overwhelming probability;
the model makes it exact, which is the contract the calling code is
written against). -/

/-- Keystream byte `i` for a given key and nonce (model). -/
def ksByte (key nonce : List Nat) (i : Nat) : Nat :=
  ((key.foldl (fun a b => a * 131 + b) 7) * 31 +
    (nonce.foldl (fun a b => a * 131 + b) 13) * 17 + i * 7919) % 256

/-- XOR a byte list with the keystream starting at position `i`. -/
def xorKs (key nonce : List Nat) : Nat → List Nat → List Nat
  | _, [] => []
  | i, b :: bs => (b ^^^ ksByte key nonce i) :: xorKs key nonce (i + 1) bs

theorem xorKs_length (key nonce : List Nat) (i : Nat) (l : List Nat) :
    (xorKs key nonce i l).length = l.length := by
  induction l generalizing i with
  | nil => rfl
  | cons b bs ih => simp [xorKs, ih]

theorem xorKs_xorKs (key nonce : List Nat) (i : Nat) (l : List Nat) :
    xorKs key nonce i (xorKs key nonce i l) = l := by
  induction l generalizing i with
  | nil => rfl
  | cons b bs ih =>
      simp only [xorKs, ih]
      rw [Nat.xor_assoc, Nat.xor_self, Nat.xor_zero]

/-- XOR-fold of the bytes of `l` whose index is congruent to `j` mod 16
(`j` counted within the current 16-byte lane window). -/
def laneXor : Nat → List Nat → Nat
  | _, [] => 0
  | 0, b :: bs => b ^^^ laneXor 15 bs
  | j + 1, _ :: bs => laneXor j bs

/-- 16-byte authentication tag of the model AEAD. -/
def tag16 (l : List Nat) : List Nat :=
  (List.range 16).map (fun j => laneXor j l)

theorem tag16_length (l : List Nat) : (tag16 l).length = 16 := by
  simp [tag16]

/-- Bytes authenticated by the tag: key, nonce, length-prefixed AAD and
the ciphertext. -/
def macIn (key nonce aad ct : List Nat) : List Nat :=
  key ++ nonce ++ leEnc 8 aad.length ++ aad ++ ct

/-- Model of `aead.Seal(nil, nonce, pt, aad)`. -/
def sealAEAD (key nonce aad pt : List Nat) : List Nat :=
  xorKs key nonce 0 pt ++ tag16 (macIn key nonce aad (xorKs key nonce 0 pt))

/-- Model of `aead.Open(nil, nonce, ct, aad)`. -/
def openAEAD (key nonce aad ct : List Nat) : Option (List Nat) :=
  if ct.length < 16 then none
  else
    let body := ct.take (ct.length - 16)
    let t := ct.drop (ct.length - 16)
    if t = tag16 (macIn key nonce aad body) then some (xorKs key nonce 0 body)
    else none

theorem sealAEAD_length (key nonce aad pt : List Nat) :
    (sealAEAD key nonce aad pt).length = pt.length + 16 := by
  simp [sealAEAD, xorKs_length, tag16_length]

theorem openAEAD_sealAEAD (key nonce aad pt : List Nat) :
    openAEAD key nonce aad (sealAEAD key nonce aad pt) = some pt := by
  have hlen := sealAEAD_length key nonce aad pt
  have henc : (xorKs key nonce 0 pt).length = pt.length := xorKs_length ..
  rw [openAEAD, if_neg (by omega)]
  have hsub : (sealAEAD key nonce aad pt).length - 16 = pt.length := by omega
  rw [hsub]
  have htake : (sealAEAD key nonce aad pt).take pt.length = xorKs key nonce 0 pt := by
    rw [sealAEAD, ← henc, List.take_left]
  have hdrop : (sealAEAD key nonce aad pt).drop pt.length
      = tag16 (macIn key nonce aad (xorKs key nonce 0 pt)) := by
    rw [sealAEAD, ← henc, List.drop_left]
  simp only [htake, hdrop]
  simp [xorKs_xorKs]

/-! ### Tamper detection in the model AEAD -/

theorem xor_left_cancel {c x y : Nat} (h : c ^^^ x = c ^^^ y) : x = y := by
  have hx : c ^^^ (c ^^^ x) = x := by
    rw [← Nat.xor_assoc, Nat.xor_self, Nat.zero_xor]
  have hy : c ^^^ (c ^^^ y) = y := by
    rw [← Nat.xor_assoc, Nat.xor_self, Nat.zero_xor]
  rw [← hx, ← hy, h]

theorem xor_right_cancel {c x y : Nat} (h : x ^^^ c = y ^^^ c) : x = y := by
  have hx : (x ^^^ c) ^^^ c = x := by
    rw [Nat.xor_assoc, Nat.xor_self, Nat.xor_zero]
  have hy : (y ^^^ c) ^^^ c = y := by
    rw [Nat.xor_assoc, Nat.xor_self, Nat.xor_zero]
  rw [← hx, ← hy, h]

theorem xor_two_pow_ne (a t : Nat) : a ^^^ 2 ^ t ≠ a := by
  intro h
  have h0 : a ^^^ 2 ^ t = a ^^^ 0 := by rw [Nat.xor_zero]; exact h
  exact absurd (xor_left_cancel h0) (Nat.pos_iff_ne_zero.mp (Nat.two_pow_pos t))

theorem laneXor_ne (u : List Nat) (a b : Nat) (v : List Nat) (hab : a ≠ b) :
    laneXor (u.length % 16) (u ++ a :: v) ≠ laneXor (u.length % 16) (u ++ b :: v) := by
  induction u with
  | nil =>
      simp only [List.nil_append, List.length_nil, Nat.zero_mod]
      show a ^^^ laneXor 15 v ≠ b ^^^ laneXor 15 v
      intro h
      exact hab (xor_right_cancel h)
  | cons c u ih =>
      simp only [List.cons_append, List.length_cons]
      by_cases h15 : u.length % 16 = 15
      · have h0 : (u.length + 1) % 16 = 0 := by omega
        rw [h0]
        show c ^^^ laneXor 15 (u ++ a :: v) ≠ c ^^^ laneXor 15 (u ++ b :: v)
        intro h
        exact (h15 ▸ ih) (xor_left_cancel h)
      · have hmod : u.length % 16 < 16 := Nat.mod_lt _ (by omega)
        have h1 : (u.length + 1) % 16 = u.length % 16 + 1 := by omega
        rw [h1]
        show laneXor (u.length % 16) (u ++ a :: v) ≠ laneXor (u.length % 16) (u ++ b :: v)
        exact ih

theorem tag16_getD (l : List Nat) (j : Nat) (hj : j < 16) :
    (tag16 l).getD j 0 = laneXor j l := by
  simp [tag16, List.getD_eq_getElem?_getD, List.getElem?_map, List.getElem?_range, hj]

theorem tag16_ne {u v : List Nat} {a b : Nat} (hab : a ≠ b) :
    tag16 (u ++ a :: v) ≠ tag16 (u ++ b :: v) := by
  intro h
  have hj : u.length % 16 < 16 := Nat.mod_lt _ (by omega)
  have h1 : (tag16 (u ++ a :: v)).getD (u.length % 16) 0
      = (tag16 (u ++ b :: v)).getD (u.length % 16) 0 := by rw [h]
  rw [tag16_getD _ _ hj, tag16_getD _ _ hj] at h1
  exact laneXor_ne u a b v hab h1

/-- Flip bit `t` of the byte at position `q`. -/
def flipByteAt (l : List Nat) (q t : Nat) : List Nat :=
  l.set q (l.getD q 0 ^^^ 2 ^ t)

theorem flipByteAt_length (l : List Nat) (q t : Nat) :
    (flipByteAt l q t).length = l.length := by
  simp [flipByteAt]

theorem macIn_eq (key nonce aad ct : List Nat) :
    macIn key nonce aad ct = (key ++ nonce ++ leEnc 8 aad.length ++ aad) ++ ct := by
  simp [macIn]

theorem list_decomp_at {α : Type} [Inhabited α] {l : List α} {q : Nat}
    (hq : q < l.length) :
    l = l.take q ++ l.getD q default :: l.drop (q + 1) := by
  rw [List.getD_eq_getElem l default hq, List.getElem_cons_drop l q hq,
    List.take_append_drop]

theorem set_decomp_at {l : List Nat} {q : Nat} (x : Nat) (hq : q < l.length) :
    l.set q x = l.take q ++ x :: l.drop (q + 1) := by
  rw [List.set_eq_take_append_cons_drop, if_pos hq]


theorem openAEAD_of_tag_ne (key nonce aad body tg : List Nat)
    (hb16 : tg.length = 16)
    (hne : tg ≠ tag16 (macIn key nonce aad body)) :
    openAEAD key nonce aad (body ++ tg) = none := by
  have hlen : (body ++ tg).length = body.length + 16 := by
    simp [hb16]
  simp only [openAEAD, hlen]
  rw [if_neg (by omega), Nat.add_sub_cancel, List.take_left, List.drop_left, if_neg hne]

/-- In the model, any single-bit flip anywhere in a sealed chunk
(ciphertext body or tag) makes `openAEAD` fail. -/
theorem openAEAD_flipByteAt (key nonce aad pt : List Nat) (q t : Nat)
    (hq : q < pt.length + 16) :
    openAEAD key nonce aad (flipByteAt (sealAEAD key nonce aad pt) q t) = none := by
  have hel : (xorKs key nonce 0 pt).length = pt.length := xorKs_length ..
  by_cases hcase : q < pt.length
  · -- flip inside the encrypted body
    have hget : (sealAEAD key nonce aad pt).getD q 0
        = (xorKs key nonce 0 pt).getD q 0 :=
      List.getD_append _ _ _ _ (by omega)
    have hflip : flipByteAt (sealAEAD key nonce aad pt) q t
        = (xorKs key nonce 0 pt).set q ((xorKs key nonce 0 pt).getD q 0 ^^^ 2 ^ t)
          ++ tag16 (macIn key nonce aad (xorKs key nonce 0 pt)) := by
      rw [flipByteAt, hget, sealAEAD, List.set_append, if_pos (by omega)]
    rw [hflip]
    apply openAEAD_of_tag_ne _ _ _ _ _ (tag16_length _)
    have hq' : q < (xorKs key nonce 0 pt).length := by omega
    have hbody : macIn key nonce aad (xorKs key nonce 0 pt)
        = ((key ++ nonce ++ leEnc 8 aad.length ++ aad) ++ (xorKs key nonce 0 pt).take q)
          ++ (xorKs key nonce 0 pt).getD q 0 :: (xorKs key nonce 0 pt).drop (q + 1) := by
      rw [macIn_eq]
      conv_lhs => rw [list_decomp_at hq']
      simp [List.append_assoc]
    have hbody' : macIn key nonce aad
        ((xorKs key nonce 0 pt).set q ((xorKs key nonce 0 pt).getD q 0 ^^^ 2 ^ t))
        = ((key ++ nonce ++ leEnc 8 aad.length ++ aad) ++ (xorKs key nonce 0 pt).take q)
          ++ ((xorKs key nonce 0 pt).getD q 0 ^^^ 2 ^ t)
            :: (xorKs key nonce 0 pt).drop (q + 1) := by
      rw [macIn_eq, set_decomp_at _ hq']
      simp [List.append_assoc]
    rw [hbody, hbody']
    exact tag16_ne (fun h => xor_two_pow_ne _ t h.symm)
  · -- flip inside the 16-byte tag
    have htl : (tag16 (macIn key nonce aad (xorKs key nonce 0 pt))).length = 16 :=
      tag16_length _
    have hget : (sealAEAD key nonce aad pt).getD q 0
        = (tag16 (macIn key nonce aad (xorKs key nonce 0 pt))).getD (q - pt.length) 0 := by
      rw [sealAEAD, List.getD_append_right _ _ _ _ (by omega), hel]
    have hflip : flipByteAt (sealAEAD key nonce aad pt) q t
        = xorKs key nonce 0 pt
          ++ (tag16 (macIn key nonce aad (xorKs key nonce 0 pt))).set (q - pt.length)
            ((tag16 (macIn key nonce aad (xorKs key nonce 0 pt))).getD (q - pt.length) 0
              ^^^ 2 ^ t) := by
      rw [flipByteAt, hget, sealAEAD, List.set_append, if_neg (by omega), hel]
    rw [hflip]
    apply openAEAD_of_tag_ne _ _ _ _ _ (by rw [List.length_set, htl])
    intro hcontra
    have hb : q - pt.length
        < ((tag16 (macIn key nonce aad (xorKs key nonce 0 pt))).set (q - pt.length)
          ((tag16 (macIn key nonce aad (xorKs key nonce 0 pt))).getD (q - pt.length) 0
            ^^^ 2 ^ t)).length := by
      rw [List.length_set, htl]; omega
    have h1 := List.getElem_set_self hb
    have h2 : ((tag16 (macIn key nonce aad (xorKs key nonce 0 pt))).set (q - pt.length)
        ((tag16 (macIn key nonce aad (xorKs key nonce 0 pt))).getD (q - pt.length) 0
          ^^^ 2 ^ t)).getD (q - pt.length) 0
        = (tag16 (macIn key nonce aad (xorKs key nonce 0 pt))).getD (q - pt.length) 0 := by
      rw [hcontra]
    rw [List.getD_eq_getElem _ _ hb, h1] at h2
    exact xor_two_pow_ne _ t h2

/-! ## SHA-256 (the code uses Go's `crypto/sha256`; embedded in full)

The Go code feeds each plaintext chunk into a running `sha256.New()`
hash and finalizes with `Sum`; a streaming SHA-256 over consecutive
writes equals SHA-256 of their concatenation, so the embedding applies
`sha256` to the concatenated bytes. -/

/-- Split a byte list into consecutive pieces of `C` bytes (the last
piece may be shorter).  This is exactly the sequence of buffers a
`C`-byte `io.ReadFull` loop produces. -/
def chunksOfLen (C : Nat) (l : List Nat) : List (List Nat) :=
  if l = [] ∨ C = 0 then [] else l.take C :: chunksOfLen C (l.drop C)
termination_by l.length
decreasing_by
  rename_i h
  push_neg at h
  have h1 : l.length ≠ 0 := fun hn => h.1 (List.eq_nil_of_length_eq_zero hn)
  simp only [List.length_drop]
  omega

/-- Big-endian encoding of `v` into `k` bytes. -/
def beEnc : Nat → Nat → List Nat
  | 0, _ => []
  | k + 1, v => beEnc k (v / 256) ++ [v % 256]

/-- Big-endian decoding of a byte list. -/
def beDec (l : List Nat) : Nat :=
  l.foldl (fun a b => a * 256 + b) 0

def rotr32 (x n : Nat) : Nat :=
  ((x >>> n) ||| (x <<< (32 - n))) % 2 ^ 32

def shaNot32 (x : Nat) : Nat := x ^^^ 0xffffffff

def shaCh (x y z : Nat) : Nat := (x &&& y) ^^^ (shaNot32 x &&& z)

def shaMaj (x y z : Nat) : Nat := (x &&& y) ^^^ (x &&& z) ^^^ (y &&& z)

def shaBigSigma0 (x : Nat) : Nat := rotr32 x 2 ^^^ rotr32 x 13 ^^^ rotr32 x 22

def shaBigSigma1 (x : Nat) : Nat := rotr32 x 6 ^^^ rotr32 x 11 ^^^ rotr32 x 25

def shaSmallSigma0 (x : Nat) : Nat := rotr32 x 7 ^^^ rotr32 x 18 ^^^ (x >>> 3)

def shaSmallSigma1 (x : Nat) : Nat := rotr32 x 17 ^^^ rotr32 x 19 ^^^ (x >>> 10)

def shaK : List Nat :=
  [1116352408, 1899447441, 3049323471, 3921009573,
   961987163, 1508970993, 2453635748, 2870763221,
   3624381080, 310598401, 607225278, 1426881987,
   1925078388, 2162078206, 2614888103, 3248222580,
   3835390401, 4022224774, 264347078, 604807628,
   770255983, 1249150122, 1555081692, 1996064986,
   2554220882, 2821834349, 2952996808, 3210313671,
   3336571891, 3584528711, 113926993, 338241895,
   666307205, 773529912, 1294757372, 1396182291,
   1695183700, 1986661051, 2177026350, 2456956037,
   2730485921, 2820302411, 3259730800, 3345764771,
   3516065817, 3600352804, 4094571909, 275423344,
   430227734, 506948616, 659060556, 883997877,
   958139571, 1322822218, 1537002063, 1747873779,
   1955562222, 2024104815, 2227730452, 2361852424,
   2428436474, 2756734187, 3204031479, 3329325298]

def shaH0 : List Nat :=
  [1779033703, 3144134277, 1013904242, 2773480762,
   1359893119, 2600822924, 528734635, 1541459225]

/-- SHA-256 padding: a `0x80` byte, zeros to 56 mod 64, then the
bit length as a 64-bit big-endian integer. -/
def shaPad (msg : List Nat) : List Nat :=
  msg ++ 0x80 :: List.replicate ((119 - msg.length % 64) % 64) 0
    ++ beEnc 8 (8 * msg.length)

/-- Extend 16 message-schedule words by one more word. -/
def shaExtendStep (w : List Nat) : List Nat :=
  w ++ [(shaSmallSigma1 (w.getD (w.length - 2) 0) + w.getD (w.length - 7) 0
    + shaSmallSigma0 (w.getD (w.length - 15) 0) + w.getD (w.length - 16) 0) % 2 ^ 32]

def shaExtendLoop : Nat → List Nat → List Nat
  | 0, w => w
  | k + 1, w => shaExtendLoop k (shaExtendStep w)

def shaRound (st : List Nat) (kw : Nat × Nat) : List Nat :=
  let a := st.getD 0 0
  let b := st.getD 1 0
  let c := st.getD 2 0
  let d := st.getD 3 0
  let e := st.getD 4 0
  let f := st.getD 5 0
  let g := st.getD 6 0
  let hh := st.getD 7 0
  let t1 := (hh + shaBigSigma1 e + shaCh e f g + kw.1 + kw.2) % 2 ^ 32
  let t2 := (shaBigSigma0 a + shaMaj a b c) % 2 ^ 32
  [(t1 + t2) % 2 ^ 32, a, b, c, (d + t1) % 2 ^ 32, e, f, g]

/-- Compress one 64-byte block into the running hash state. -/
def shaCompress (h : List Nat) (block : List Nat) : List Nat :=
  let w := shaExtendLoop 48 ((chunksOfLen 4 block).map beDec)
  let st := (shaK.zip w).foldl shaRound h
  (h.zip st).map (fun p => (p.1 + p.2) % 2 ^ 32)

/-- SHA-256 of a byte list, as a list of 32 bytes. -/
def sha256 (msg : List Nat) : List Nat :=
  (((chunksOfLen 64 (shaPad msg)).foldl shaCompress shaH0).map (beEnc 4)).flatten

/-! ## `internal/enc/aead.go` -/

def aeadVersionTag : String := "burrow.v1"

def AEADDefaultChunkSize : Int := 4 * 2 ^ 20

def aeadMaxChunkSize : Int := 64 * 2 ^ 20

def aeadTagSize : Nat := 16

structure AEADParams where
  ObjectID : String
  ChunkSize : Int
  NBase : List Nat
deriving DecidableEq

structure AEADResult where
  Params : AEADParams
  DataKey : List Nat
  PlainSHA : List Nat
  TotalPlain : Nat
deriving DecidableEq

/-- The distinct error exits of `EncryptAEAD`/`DecryptAEAD` (the Go code
returns `error` strings; `authFail` carries the `%d` of
`fmt.Errorf("aead chunk %d: %w", idx, err)`). -/
inductive AEADError where
  | badKeyLen
  | zeroChunk
  | hdrRead
  | ctTooShort
  | ctRead
  | authFail (idx : Nat)
deriving DecidableEq

inductive ParamsError where
  | emptyObjectID
  | invalidChunkSize
deriving DecidableEq

/-- `NewAEADParams`.  `rand.Read` is external; the sampled nonce base is
passed in as `entropy` (24 bytes are used). -/
def NewAEADParams (objectID : String) (chunkSize : Int) (entropy : List Nat) :
    Except ParamsError AEADParams :=
  if objectID = "" then .error .emptyObjectID
  else
    let cs := if chunkSize ≤ 0 then AEADDefaultChunkSize else chunkSize
    if cs < 32 * 2 ^ 10 ∨ cs > aeadMaxChunkSize then .error .invalidChunkSize
    else .ok ⟨objectID, cs, entropy.take 24⟩

/-- `buildAAD`: version tag, ObjectID, LE64 index, LE64 plaintext length
appended into a `bytes.Buffer`. -/
def buildAAD (objectID : String) (idx ptLen : Nat) : List Nat :=
  utf8Bytes aeadVersionTag ++ utf8Bytes objectID ++ leEnc 8 idx ++ leEnc 8 ptLen

/-- Go's `copy(dst[off:], src)`: overwrite `dst` from position `off`
with as much of `src` as fits. -/
def setRange (dst : List Nat) (off : Nat) (src : List Nat) : List Nat :=
  dst.take off ++ src.take (dst.length - off)
    ++ dst.drop (off + min (dst.length - off) src.length)

/-- The per-chunk nonce: a zeroed 24-byte array, the first 16 bytes of
`NBase` copied to positions 0..16, the LE64 chunk index to 16..24. -/
def nonceFor (nb : List Nat) (idx : Nat) : List Nat :=
  setRange (setRange (List.replicate 24 0) 0 (nb.take 16)) 16 (leEnc 8 idx)

/-- The chunk loop of `EncryptAEAD`: read up to `C` bytes, seal, write a
4-byte LE length header then the sealed chunk, repeat until EOF.
Returns the emitted blob and the plaintext bytes that were hashed.
(The `C = 0` branch mirrors the dead `n == 0` error exit of the Go
loop; all callers pass the defaulted, positive chunk size.) -/
def encryptChunks (key nb : List Nat) (oid : String) (C : Nat) (idx : Nat)
    (src : List Nat) : Except AEADError (List Nat × List Nat) :=
  if C = 0 then .error .zeroChunk
  else if h : src = [] then .ok ([], [])
  else
    let chunk := src.take C
    let ct := sealAEAD key (nonceFor nb idx) (buildAAD oid idx chunk.length) chunk
    match encryptChunks key nb oid C (idx + 1) (src.drop C) with
    | .error e => .error e
    | .ok (blob, plain) => .ok (leEnc 4 ct.length ++ ct ++ blob, chunk ++ plain)
termination_by src.length
decreasing_by
  rename_i hC
  have h1 : src.length ≠ 0 := fun hn => h (List.eq_nil_of_length_eq_zero hn)
  simp only [List.length_drop]
  omega

/-- The `p.ChunkSize = AEADDefaultChunkSize` defaulting `EncryptAEAD`
performs on its value copy of the params when `ChunkSize ≤ 0`. -/
def encParams (p : AEADParams) : AEADParams :=
  if p.ChunkSize ≤ 0 then { p with ChunkSize := AEADDefaultChunkSize } else p

/-- Effective chunk size used by `EncryptAEAD`: the 4 MiB default is
substituted when `ChunkSize ≤ 0`. -/
def effChunkSize (p : AEADParams) : Nat :=
  (encParams p).ChunkSize.toNat

/-- `EncryptAEAD`.  The destination writer is modelled by returning the
emitted byte stream alongside the `AEADResult`. -/
def EncryptAEAD (src : List Nat) (dataKey : List Nat) (p : AEADParams) :
    Except AEADError (List Nat × AEADResult) :=
  if dataKey.length ≠ 32 then .error .badKeyLen
  else
    match encryptChunks dataKey (encParams p).NBase (encParams p).ObjectID
        (effChunkSize p) 0 src with
    | .error e => .error e
    | .ok (blob, plain) =>
        .ok (blob, ⟨encParams p, dataKey, sha256 plain, plain.length⟩)

/-- The chunk loop of `DecryptAEAD`: read a 4-byte LE header (EOF here
terminates cleanly), reject lengths under the tag size, read the sealed
chunk, open it with the per-index nonce and AAD, concatenate the
plaintexts. -/
def decryptChunks (key nb : List Nat) (oid : String) (idx : Nat)
    (stream : List Nat) : Except AEADError (List Nat) :=
  if h0 : stream = [] then .ok []
  else if stream.length < 4 then .error .hdrRead
  else
    let ctLen := leDec (stream.take 4)
    if ctLen < aeadTagSize then .error .ctTooShort
    else
      let rest := stream.drop 4
      if rest.length < ctLen then .error .ctRead
      else
        let ct := rest.take ctLen
        match openAEAD key (nonceFor nb idx) (buildAAD oid idx (ctLen - aeadTagSize)) ct with
        | none => .error (.authFail idx)
        | some pt =>
            match decryptChunks key nb oid (idx + 1) (rest.drop ctLen) with
            | .error e => .error e
            | .ok tail => .ok (pt ++ tail)
termination_by stream.length
decreasing_by
  have h1 : stream.length ≠ 0 := fun hn => h0 (List.eq_nil_of_length_eq_zero hn)
  simp only [List.length_drop]
  omega

/-- `DecryptAEAD`. -/
def DecryptAEAD (src : List Nat) (dataKey : List Nat) (p : AEADParams) :
    Except AEADError (List Nat × AEADResult) :=
  if dataKey.length ≠ 32 then .error .badKeyLen
  else
    match decryptChunks dataKey p.NBase p.ObjectID 0 src with
    | .error e => .error e
    | .ok out => .ok (out, ⟨p, dataKey, sha256 out, out.length⟩)

/-! ### Structure of the emitted stream -/

theorem chunksOfLen_nil (C : Nat) : chunksOfLen C [] = [] := by
  rw [chunksOfLen]
  simp

theorem chunksOfLen_cons {C : Nat} {l : List Nat} (hl : l ≠ []) (hC : C ≠ 0) :
    chunksOfLen C l = l.take C :: chunksOfLen C (l.drop C) := by
  rw [chunksOfLen, if_neg]
  push_neg
  exact ⟨hl, hC⟩

theorem nonceFor_eq {nb : List Nat} (idx : Nat) (hnb : 16 ≤ nb.length) :
    nonceFor nb idx = nb.take 16 ++ leEnc 8 idx := by
  have h16 : (nb.take 16).length = 16 := by
    rw [List.length_take]; omega
  have e1 : (nb.take 16).take 24 = nb.take 16 :=
    List.take_of_length_le (by omega)
  have hinner : setRange (List.replicate 24 0) 0 (nb.take 16)
      = nb.take 16 ++ List.replicate 8 0 := by
    rw [setRange, List.length_replicate, List.take_zero, List.nil_append,
      Nat.sub_zero, e1, h16]
    rfl
  have hAlen : (nb.take 16 ++ List.replicate 8 0).length = 24 := by
    rw [List.length_append, h16, List.length_replicate]
  have e2 : (leEnc 8 idx).take 8 = leEnc 8 idx :=
    List.take_of_length_le (by rw [leEnc_length])
  rw [nonceFor, hinner, setRange, hAlen]
  have e3 : (24 : Nat) - 16 = 8 := rfl
  rw [e3, e2, leEnc_length]
  have e4 : (16 : Nat) + min 8 8 = 24 := rfl
  rw [e4, List.drop_eq_nil_of_le (by omega), List.append_nil,
    List.take_left' h16]

/-- One length-prefixed frame of the encrypted stream. -/
def frameBytes (key nb : List Nat) (oid : String) (idx : Nat) (chunk : List Nat) :
    List Nat :=
  leEnc 4 (sealAEAD key (nonceFor nb idx) (buildAAD oid idx chunk.length) chunk).length
    ++ sealAEAD key (nonceFor nb idx) (buildAAD oid idx chunk.length) chunk

/-- The frames of consecutive chunks, with ascending indices from `idx`. -/
def encFrames (key nb : List Nat) (oid : String) (idx : Nat) :
    List (List Nat) → List Nat
  | [] => []
  | c :: cs => frameBytes key nb oid idx c ++ encFrames key nb oid (idx + 1) cs

theorem chunksOfLen_flatten {C : Nat} (hC : C ≠ 0) (l : List Nat) :
    (chunksOfLen C l).flatten = l := by
  induction l using chunksOfLen.induct C with
  | case1 l h =>
      rcases h with h | h
      · subst h; rw [chunksOfLen_nil]; rfl
      · exact absurd h hC
  | case2 l h ih =>
      push_neg at h
      rw [chunksOfLen_cons h.1 hC, List.flatten_cons, ih, List.take_append_drop]

theorem chunksOfLen_length {C : Nat} (hC : C ≠ 0) (l : List Nat) :
    (chunksOfLen C l).length = (l.length + C - 1) / C := by
  have hCpos : 0 < C := Nat.pos_of_ne_zero hC
  induction l using chunksOfLen.induct C with
  | case1 l h =>
      rcases h with h | h
      · subst h
        rw [chunksOfLen_nil]
        simp only [List.length_nil]
        exact (Nat.div_eq_of_lt (by omega)).symm
      · exact absurd h hC
  | case2 l h ih =>
      push_neg at h
      have hne : l.length ≠ 0 := fun hn => h.1 (List.eq_nil_of_length_eq_zero hn)
      rw [chunksOfLen_cons h.1 hC, List.length_cons, ih, List.length_drop]
      have hrw : l.length + C - 1 = (l.length - 1) + C := by omega
      rw [hrw, Nat.add_div_right _ hCpos]
      by_cases hcmp : l.length ≤ C
      · have e1 : l.length - C + C - 1 = C - 1 := by omega
        rw [e1, Nat.div_eq_of_lt (by omega), Nat.div_eq_of_lt (by omega)]
      · have e1 : l.length - C + C - 1 = (l.length - 1 - C) + C := by omega
        have e2 : l.length - 1 = (l.length - 1 - C) + C := by omega
        have e3 : (l.length - 1) / C = (l.length - 1 - C) / C + 1 := by
          conv_lhs => rw [e2]
          rw [Nat.add_div_right _ hCpos]
        rw [e1, Nat.add_div_right _ hCpos, e3]

theorem chunksOfLen_mem {C : Nat} (hC : C ≠ 0) (l c : List Nat)
    (hc : c ∈ chunksOfLen C l) : c ≠ [] ∧ c.length ≤ C := by
  induction l using chunksOfLen.induct C with
  | case1 l h =>
      rcases h with h | h
      · subst h; rw [chunksOfLen_nil] at hc; simp at hc
      · exact absurd h hC
  | case2 l h ih =>
      push_neg at h
      rw [chunksOfLen_cons h.1 hC, List.mem_cons] at hc
      rcases hc with hc | hc
      · subst hc
        have hne : l.length ≠ 0 := fun hn => h.1 (List.eq_nil_of_length_eq_zero hn)
        constructor
        · intro htk
          have := congrArg List.length htk
          simp only [List.length_take, List.length_nil] at this
          omega
        · simp [List.length_take]
      · exact ih hc

theorem chunksOfLen_getD_length {C : Nat} (hC : C ≠ 0) (l : List Nat) (j : Nat)
    (hj : j + 1 < (chunksOfLen C l).length) :
    ((chunksOfLen C l).getD j []).length = C := by
  induction l using chunksOfLen.induct C generalizing j with
  | case1 l h =>
      rcases h with h | h
      · subst h; rw [chunksOfLen_nil] at hj; simp at hj
      · exact absurd h hC
  | case2 l h ih =>
      push_neg at h
      rw [chunksOfLen_cons h.1 hC] at hj ⊢
      rw [List.length_cons] at hj
      match j with
      | 0 =>
          simp only [List.getD_cons_zero]
          have hdrop : chunksOfLen C (l.drop C) ≠ [] := by
            intro hn
            rw [hn] at hj
            simp at hj
          have hlI : l.drop C ≠ [] := by
            intro hn
            rw [hn, chunksOfLen_nil] at hdrop
            exact hdrop rfl
          have hlt : C < l.length := by
            by_contra hcon
            exact hlI (List.drop_eq_nil_of_le (by omega))
          simp [List.length_take]
          omega
      | j + 1 =>
          simp only [List.getD_cons_succ]
          exact ih j (by omega)

theorem encFrames_length (key nb : List Nat) (oid : String) (idx : Nat)
    (cs : List (List Nat)) :
    (encFrames key nb oid idx cs).length
      = (cs.map (fun c => 4 + c.length + 16)).sum := by
  induction cs generalizing idx with
  | nil => rfl
  | cons c cs ih =>
      rw [encFrames, List.map_cons, List.sum_cons, List.length_append, ih,
        frameBytes, List.length_append, leEnc_length, sealAEAD_length]
      omega

/-- The write loop of `EncryptAEAD` emits exactly the frames of the
`ReadFull` chunking, with consecutive indices, and hashes exactly the
source bytes. -/
theorem encryptChunks_ok (key nb : List Nat) (oid : String) {C : Nat} (hC : C ≠ 0)
    (src : List Nat) (idx : Nat) :
    encryptChunks key nb oid C idx src
      = .ok (encFrames key nb oid idx (chunksOfLen C src), src) := by
  induction src using chunksOfLen.induct C generalizing idx with
  | case1 l h =>
      rcases h with h | h
      · subst h
        rw [encryptChunks, if_neg hC, dif_pos rfl, chunksOfLen_nil]
        rfl
      · exact absurd h hC
  | case2 l h ih =>
      push_neg at h
      rw [encryptChunks, if_neg hC, dif_neg h.1, ih, chunksOfLen_cons h.1 hC]
      rw [encFrames, frameBytes]
      simp only [Except.ok.injEq, Prod.mk.injEq, List.append_assoc]
      exact ⟨trivial, List.take_append_drop C l⟩

theorem decryptChunks_nil (key nb : List Nat) (oid : String) (idx : Nat) :
    decryptChunks key nb oid idx [] = .ok [] := by
  rw [decryptChunks]
  rfl

/-- One step of the `DecryptAEAD` read loop on a well-formed header. -/
theorem decryptChunks_step (key nb : List Nat) (oid : String) (idx : Nat)
    (L : Nat) (R : List Nat) (hL16 : 16 ≤ L) (hL32 : L < 2 ^ 32)
    (hR : L ≤ R.length) :
    decryptChunks key nb oid idx (leEnc 4 L ++ R)
      = match openAEAD key (nonceFor nb idx) (buildAAD oid idx (L - aeadTagSize))
          (R.take L) with
        | none => .error (.authFail idx)
        | some pt =>
            match decryptChunks key nb oid (idx + 1) (R.drop L) with
            | .error e => .error e
            | .ok tail => .ok (pt ++ tail) := by
  have hlen : (leEnc 4 L ++ R).length = 4 + R.length := by
    rw [List.length_append, leEnc_length]
  have hne : leEnc 4 L ++ R ≠ [] := by
    intro hnil
    have := congrArg List.length hnil
    rw [hlen] at this
    simp at this
  have hL32' : L < 2 ^ (8 * 4) := by
    norm_num
    omega
  rw [decryptChunks, dif_neg hne, if_neg (by rw [hlen]; omega)]
  simp only [List.take_left' (leEnc_length 4 L), List.drop_left' (leEnc_length 4 L),
    leDec_leEnc_of_lt hL32']
  rw [if_neg (show ¬L < aeadTagSize by simp only [aeadTagSize]; omega)]
  rw [if_neg (by omega)]

/-- Decrypting well-formed frames followed by any remainder: each frame
opens with the matching index, and the plaintexts concatenate. -/
theorem decryptChunks_frames (key nb : List Nat) (oid : String)
    (cs : List (List Nat)) :
    ∀ (idx : Nat) (s : List Nat),
      (∀ c ∈ cs, c.length + 16 < 2 ^ 32) →
      decryptChunks key nb oid idx (encFrames key nb oid idx cs ++ s)
        = match decryptChunks key nb oid (idx + cs.length) s with
          | .error e => .error e
          | .ok t => .ok (cs.flatten ++ t) := by
  induction cs with
  | nil =>
      intro idx s _
      simp only [encFrames, List.nil_append, List.length_nil, Nat.add_zero,
        List.flatten_nil]
      cases hdc : decryptChunks key nb oid idx s with
      | error e => rfl
      | ok t => simp
  | cons c cs ih =>
      intro idx s hb
      have hlt : c.length + 16 < 2 ^ 32 := hb c (by simp)
      have hseal : (sealAEAD key (nonceFor nb idx) (buildAAD oid idx c.length) c).length
          = c.length + 16 := sealAEAD_length ..
      have hstream : encFrames key nb oid idx (c :: cs) ++ s
          = leEnc 4 (sealAEAD key (nonceFor nb idx) (buildAAD oid idx c.length) c).length
            ++ (sealAEAD key (nonceFor nb idx) (buildAAD oid idx c.length) c
              ++ (encFrames key nb oid (idx + 1) cs ++ s)) := by
        rw [encFrames, frameBytes]
        simp [List.append_assoc]
      rw [hstream, decryptChunks_step key nb oid idx _ _ (by omega)
        (by omega) (by simp [List.length_append, hseal])]
      rw [hseal]
      have hsub : c.length + 16 - aeadTagSize = c.length := by
        simp only [aeadTagSize]
        omega
      rw [hsub, ← hseal, List.take_left, List.drop_left, openAEAD_sealAEAD]
      rw [ih (idx + 1) s (fun d hd => hb d (by simp [hd]))]
      have hidx : idx + 1 + cs.length = idx + (c :: cs).length := by
        simp [List.length_cons]
        omega
      rw [hidx]
      cases hdc : decryptChunks key nb oid (idx + (c :: cs).length) s with
      | error e => rfl
      | ok t => simp [List.flatten_cons, List.append_assoc]

theorem encParams_ObjectID (p : AEADParams) : (encParams p).ObjectID = p.ObjectID := by
  rw [encParams]
  by_cases h : p.ChunkSize ≤ 0 <;> simp [h]

theorem encParams_NBase (p : AEADParams) : (encParams p).NBase = p.NBase := by
  rw [encParams]
  by_cases h : p.ChunkSize ≤ 0 <;> simp [h]

theorem effChunkSize_ne_zero (p : AEADParams) : effChunkSize p ≠ 0 := by
  rw [effChunkSize, encParams]
  by_cases h : p.ChunkSize ≤ 0
  · simp only [if_pos h]
    decide
  · simp only [if_neg h]
    push_neg at h
    omega

/-- `EncryptAEAD` with a 32-byte key always succeeds, echoes the
(default-substituted) params and the key, reports the SHA-256 and length
of the source, and writes the frames of the `ReadFull` chunking. -/
theorem EncryptAEAD_ok (src key : List Nat) (p : AEADParams)
    (hkey : key.length = 32) :
    EncryptAEAD src key p
      = .ok (encFrames key p.NBase p.ObjectID 0 (chunksOfLen (effChunkSize p) src),
          ⟨encParams p, key, sha256 src, src.length⟩) := by
  rw [EncryptAEAD, if_neg (by simp [hkey])]
  rw [encryptChunks_ok key (encParams p).NBase (encParams p).ObjectID
    (effChunkSize_ne_zero p) src 0]
  rw [encParams_ObjectID, encParams_NBase]

/-- Decrypting the blob written by `EncryptAEAD` with the same key and
params recovers the source exactly, provided every frame's ciphertext
length fits the 32-bit header. -/
theorem DecryptAEAD_EncryptAEAD (src key : List Nat) (p : AEADParams)
    (hkey : key.length = 32) (hC : effChunkSize p + 16 < 2 ^ 32) :
    DecryptAEAD (encFrames key p.NBase p.ObjectID 0 (chunksOfLen (effChunkSize p) src))
        key p
      = .ok (src, ⟨p, key, sha256 src, src.length⟩) := by
  have hb : ∀ c ∈ chunksOfLen (effChunkSize p) src, c.length + 16 < 2 ^ 32 := by
    intro c hc
    have := (chunksOfLen_mem (effChunkSize_ne_zero p) src c hc).2
    omega
  rw [DecryptAEAD, if_neg (by simp [hkey])]
  have hframes := decryptChunks_frames key p.NBase p.ObjectID
    (chunksOfLen (effChunkSize p) src) 0 [] hb
  rw [List.append_nil] at hframes
  rw [hframes, decryptChunks_nil]
  simp [chunksOfLen_flatten (effChunkSize_ne_zero p)]

/-! ## Adaptive compressor (`NewCompressorWithInfo`, auto mode)

The zstd encoder is external (`github.com/klauspost/compress/zstd`); it
is passed in as a function `zc` from the bytes written to the encoder to
the bytes it emits (the stream totals observed at `Close`).  Go
`float64` arithmetic on savings ratios is modelled with exact rationals.
The sink writer is modelled by accumulating the emitted bytes. -/

def CompressNone : String := "none"

def CompressZstd : String := "zstd"

def CompressAuto : String := "auto"

structure CompressorConfig where
  Mode : String
  ZstdLevel : Int
  AutoMinSaving : ℚ
  SampleBytes : Int

structure CompressInfo where
  ModeRequested : String
  ModeUsed : String
  EstimatedSavings : ℚ
  FinalSavings : ℚ
  BytesInUncompressed : Nat
  BytesOutCompressed : Nat
  SampledBytes : Nat
  Decided : Bool
deriving DecidableEq

/-- State of `adaptiveCompressor`: `buf` is the sample buffer, `zin` the
bytes fed to the committed zstd encoder, `out` the bytes emitted to the
sink so far. -/
structure AutoState where
  decided : Bool
  useZstd : Bool
  buf : List Nat
  zin : List Nat
  out : List Nat
  inN : Nat
  info : CompressInfo
deriving DecidableEq

/-- Defaulted `SampleBytes` (4 MiB when `≤ 0`), from
`NewCompressorWithInfo`. -/
def effSampleBytes (cfg : CompressorConfig) : Nat :=
  (if cfg.SampleBytes ≤ 0 then (4 * 2 ^ 20 : Int) else cfg.SampleBytes).toNat

/-- Defaulted `AutoMinSaving` (0.05 when `≤ 0`), from
`NewCompressorWithInfo`. -/
def effAutoMinSaving (cfg : CompressorConfig) : ℚ :=
  if cfg.AutoMinSaving ≤ 0 then 1 / 20 else cfg.AutoMinSaving

def autoInit (cfg : CompressorConfig) : AutoState :=
  ⟨false, false, [], [], [], 0, ⟨cfg.Mode, cfg.Mode, -1, -1, 0, 0, 0, false⟩⟩

/-- `adaptiveCompressor.decideAndFlush`: trial-compress the buffered
sample, commit to zstd iff the estimated saving reaches the threshold,
then flush the sample through the chosen path. -/
def decideAndFlush (zc : List Nat → List Nat) (minSaving : ℚ) (st : AutoState) :
    AutoState :=
  if st.decided then st
  else
    let sample := st.buf
    let est : ℚ :=
      if 0 < sample.length then
        1 - ((zc sample).length : ℚ) / (sample.length : ℚ)
      else -1
    if minSaving ≤ est then
      { st with
        decided := true
        useZstd := true
        buf := []
        zin := sample
        info := { st.info with
          SampledBytes := sample.length
          EstimatedSavings := est
          ModeUsed := CompressZstd
          Decided := true } }
    else
      { st with
        decided := true
        useZstd := false
        buf := []
        out := st.out ++ sample
        info := { st.info with
          SampledBytes := sample.length
          EstimatedSavings := est
          ModeUsed := CompressNone
          Decided := true } }

/-- `adaptiveCompressor.Write`. -/
def autoWrite (zc : List Nat → List Nat) (minSaving : ℚ) (sampleBytes : Nat)
    (st : AutoState) (pw : List Nat) : AutoState :=
  let st1 := { st with inN := st.inN + pw.length }
  if st1.decided then
    if st1.useZstd then { st1 with zin := st1.zin ++ pw }
    else { st1 with out := st1.out ++ pw }
  else
    let st2 := { st1 with buf := st1.buf ++ pw }
    if sampleBytes ≤ st2.buf.length then decideAndFlush zc minSaving st2 else st2

/-- `adaptiveCompressor.Close`: decide if not yet decided, flush the
encoder, and finalize the counters. -/
def autoClose (zc : List Nat → List Nat) (minSaving : ℚ) (st : AutoState) :
    List Nat × CompressInfo :=
  let st1 := if st.decided then st else decideAndFlush zc minSaving st
  let out := if st1.useZstd then st1.out ++ zc st1.zin else st1.out
  let fin : ℚ := if 0 < st1.inN then 1 - (out.length : ℚ) / (st1.inN : ℚ) else -1
  (out, { st1.info with
    BytesInUncompressed := st1.inN
    BytesOutCompressed := out.length
    FinalSavings := fin })

/-- A whole auto-mode session: a sequence of `Write` calls followed by
`Close`. -/
def autoRun (zc : List Nat → List Nat) (cfg : CompressorConfig)
    (writes : List (List Nat)) : List Nat × CompressInfo :=
  autoClose zc (effAutoMinSaving cfg)
    (writes.foldl (autoWrite zc (effAutoMinSaving cfg) (effSampleBytes cfg))
      (autoInit cfg))

/-- The write-granular split of the stream into the buffered sample and
the subsequent writes: writes are buffered whole until the cumulative
buffered length reaches `S` (or the stream ends). -/
def sampleSplit (S : Nat) : List (List Nat) → List (List Nat) × List (List Nat)
  | [] => ([], [])
  | w :: ws =>
      if S ≤ w.length then ([w], ws)
      else
        let r := sampleSplit (S - w.length) ws
        (w :: r.1, r.2)

/-! ## Envelope (`internal/envelope`, embedded alongside
`internal/upload/uploader.go`) -/

def envelopeVersion1 : String := "burrow.1.1"

structure Envelope where
  Version : String
  ObjectID : String
  EncryptionParams : AEADParams
  EncryptionDataKey : List Nat
  CompressionMode : String
  PlainSHA : List Nat
  OriginalFileName : String
deriving DecidableEq

/-- `NewEnvelope`: only `Version`, `ObjectID` and `OriginalFileName`
are set; the remaining fields are zero values. -/
def NewEnvelope (objectID original : String) : Envelope :=
  ⟨envelopeVersion1, objectID, ⟨"", 0, List.replicate 24 0⟩, [], "", [], original⟩

/-- `Envelope.Open`: age-decrypt the sealed bytes with the supplied
identities, then JSON-unmarshal the plaintext.  The age stream cipher
and the JSON codec are external and passed in as functions.  The body
performs no further checks: in particular the decoded envelope's
`Version` field is never inspected. -/
def envelopeOpen (ageDecrypt : List Nat → Except String (List Nat))
    (jsonUnmarshal : List Nat → Except String Envelope)
    (cipher : List Nat) : Except String Envelope :=
  match ageDecrypt cipher with
  | .error e => .error e
  | .ok b => jsonUnmarshal b

/-! ## Download decompress stage
(`decryptionPipeline.decompressStage` in `internal/download/download.go`) -/

/-- The `switch mode` of `decompressStage`.  The zstd decoder is
external and passed in; the pass-through branch is an `io.Copy`. -/
def decompressStage (zstdDecode : List Nat → Except String (List Nat))
    (mode : String) (input : List Nat) : Except String (List Nat) :=
  if mode = CompressNone ∨ mode = "" then .ok input
  else if mode = CompressZstd then zstdDecode input
  else .error ("unsupported compression mode: " ++ mode)

theorem encFrames_append (key nb : List Nat) (oid : String) (idx : Nat)
    (cs1 cs2 : List (List Nat)) :
    encFrames key nb oid idx (cs1 ++ cs2)
      = encFrames key nb oid idx cs1 ++ encFrames key nb oid (idx + cs1.length) cs2 := by
  induction cs1 generalizing idx with
  | nil => simp [encFrames]
  | cons c cs ih =>
      simp only [List.cons_append, encFrames, List.length_cons, List.append_eq]
      rw [ih, List.append_assoc,
        show idx + 1 + cs.length = idx + (cs.length + 1) by omega]

/-! ## Claim-correction material for the round-trip claim

With `ChunkSize = 2^32` (accepted as-is by `EncryptAEAD`, which only
replaces non-positive values) a single chunk of `2^32 - 16` plaintext
bytes yields a ciphertext of exactly `2^32` bytes, whose length is
truncated to `0` by the 32-bit header; `DecryptAEAD` then rejects the
stream. -/

def cexKey : List Nat := List.replicate 32 1

def cexNB : List Nat := List.replicate 24 2

def cexParams : AEADParams := ⟨"x", 2 ^ 32, cexNB⟩

def cexPlain : List Nat := List.replicate (2 ^ 32 - 16) 7

def cexBlob : List Nat := encFrames cexKey cexNB "x" 0 [cexPlain]

theorem cex_chunks : chunksOfLen (effChunkSize cexParams) cexPlain = [cexPlain] := by
  have heff : effChunkSize cexParams = 2 ^ 32 := by decide
  have hlen : cexPlain.length = 2 ^ 32 - 16 := by
    rw [cexPlain, List.length_replicate]
  have hne : cexPlain ≠ [] := by
    intro h
    have h0 := congrArg List.length h
    rw [hlen, List.length_nil] at h0
    omega
  rw [heff, chunksOfLen_cons hne (by decide),
    List.take_of_length_le (by rw [hlen]; omega),
    List.drop_eq_nil_of_le (by rw [hlen]; omega), chunksOfLen_nil]

theorem cex_encrypt :
    EncryptAEAD cexPlain cexKey cexParams
      = .ok (cexBlob, ⟨cexParams, cexKey, sha256 cexPlain, cexPlain.length⟩) := by
  rw [EncryptAEAD_ok cexPlain cexKey cexParams (by decide), cex_chunks]
  have hP : encParams cexParams = cexParams := by
    rw [encParams, if_neg (by decide)]
  rw [hP]
  rfl

theorem cex_hdr_zero :
    leEnc 4 (sealAEAD cexKey (nonceFor cexNB 0) (buildAAD "x" 0 cexPlain.length)
      cexPlain).length = [0, 0, 0, 0] := by
  rw [sealAEAD_length, cexPlain, List.length_replicate]
  rw [show 2 ^ 32 - 16 + 16 = 2 ^ 32 by omega]
  decide

theorem decryptChunks_hdr_short (key nb : List Nat) (oid : String) (idx : Nat)
    (hdr4 R : List Nat) (hh : hdr4.length = 4) (hlt : leDec hdr4 < aeadTagSize) :
    decryptChunks key nb oid idx (hdr4 ++ R) = .error .ctTooShort := by
  have hlen : (hdr4 ++ R).length = 4 + R.length := by
    rw [List.length_append, hh]
  have hne : hdr4 ++ R ≠ [] := by
    intro h0
    have h1 := congrArg List.length h0
    rw [hlen, List.length_nil] at h1
    omega
  rw [decryptChunks, dif_neg hne, if_neg (by rw [hlen]; omega)]
  simp only [List.take_left' hh]
  rw [if_pos hlt]

theorem cex_decrypt : DecryptAEAD cexBlob cexKey cexParams = .error .ctTooShort := by
  have hctlen : (sealAEAD cexKey (nonceFor cexNB 0) (buildAAD "x" 0 cexPlain.length)
      cexPlain).length = 2 ^ 32 := by
    rw [sealAEAD_length, cexPlain, List.length_replicate]
    omega
  have hblob : cexBlob = [0, 0, 0, 0]
      ++ sealAEAD cexKey (nonceFor cexNB 0) (buildAAD "x" 0 cexPlain.length) cexPlain := by
    rw [cexBlob, encFrames, encFrames, frameBytes, cex_hdr_zero, List.append_nil]
  have hlen : cexBlob.length = 4 + 2 ^ 32 := by
    rw [hblob, List.length_append, hctlen]
    rfl
  rw [DecryptAEAD, if_neg (by decide), hblob,
    decryptChunks_hdr_short cexKey cexParams.NBase cexParams.ObjectID 0
      [0, 0, 0, 0] _ rfl (by decide)]

/-! ## Claim theorems -/

/-- Claim C1, counterexample: the round-trip claim quantifies over every
`AEADParams` with a non-empty ObjectID, but with `ChunkSize = 2^32` and
a plaintext of `2^32 - 16` bytes the single chunk's ciphertext length
(`2^32`) is truncated to `0` by the 32-bit length header, and
`DecryptAEAD` under the same key and params fails with a
ciphertext-too-short error instead of yielding the plaintext. -/
theorem C1_counterexample :
    cexParams.ObjectID ≠ ""
      ∧ cexKey.length = 32
      ∧ (EncryptAEAD cexPlain cexKey cexParams).map Prod.fst = .ok cexBlob
      ∧ DecryptAEAD cexBlob cexKey cexParams = .error .ctTooShort := by
  refine ⟨by decide, by decide, ?_, cex_decrypt⟩
  rw [cex_encrypt]
  rfl

/-- Claim C1, amended: for every plaintext `P`, every 32-byte data key,
and every `AEADParams` with a non-empty ObjectID whose effective chunk
size `C` (the 4 MiB default when `ChunkSize ≤ 0`) satisfies
`C + 16 < 2^32` (so each chunk's ciphertext length fits the 32-bit
header; any params from `NewAEADParams` qualify), decrypting the output
of `EncryptAEAD` with `DecryptAEAD` under the same key and params
succeeds and yields exactly `P`. -/
theorem C1_roundtrip_amended (P key : List Nat) (p : AEADParams)
    (hkey : key.length = 32) (hoid : p.ObjectID ≠ "")
    (hC : effChunkSize p + 16 < 2 ^ 32) :
    ∃ blob r, EncryptAEAD P key p = .ok (blob, r)
      ∧ ∃ r2, DecryptAEAD blob key p = .ok (P, r2) :=
  ⟨_, _, EncryptAEAD_ok P key p hkey,
    _, DecryptAEAD_EncryptAEAD P key p hkey hC⟩

theorem C1_roundtrip_amended_witness :
    (List.replicate 32 1 : List Nat).length = 32
      ∧ (⟨"x", 2, List.replicate 24 2⟩ : AEADParams).ObjectID ≠ ""
      ∧ effChunkSize ⟨"x", 2, List.replicate 24 2⟩ + 16 < 2 ^ 32
      ∧ ∃ blob r, EncryptAEAD [1, 2, 3] (List.replicate 32 1)
            ⟨"x", 2, List.replicate 24 2⟩ = .ok (blob, r)
        ∧ ∃ r2, DecryptAEAD blob (List.replicate 32 1)
            ⟨"x", 2, List.replicate 24 2⟩ = .ok ([1, 2, 3], r2) :=
  ⟨by decide, by decide, by decide,
    C1_roundtrip_amended [1, 2, 3] (List.replicate 32 1)
      ⟨"x", 2, List.replicate 24 2⟩ (by decide) (by decide) (by decide)⟩

/-- Claim C3: for every plaintext `P` (with key and params as in the
spec's round-trip law: a 32-byte key and fresh params, whose effective
chunk size fits the 32-bit header), the `PlainSHA` reported by
`EncryptAEAD` equals `SHA-256(P)`, and the `PlainSHA` reported by
`DecryptAEAD` on the corresponding ciphertext under the same key and
params equals the same value. -/
theorem C3_digest (P key : List Nat) (p : AEADParams) (hkey : key.length = 32)
    (hC : effChunkSize p + 16 < 2 ^ 32) :
    ∃ blob r r2, EncryptAEAD P key p = .ok (blob, r)
      ∧ DecryptAEAD blob key p = .ok (P, r2)
      ∧ r.PlainSHA = sha256 P ∧ r2.PlainSHA = sha256 P :=
  ⟨_, _, _, EncryptAEAD_ok P key p hkey,
    DecryptAEAD_EncryptAEAD P key p hkey hC, rfl, rfl⟩

theorem C3_digest_witness :
    (List.replicate 32 1 : List Nat).length = 32
      ∧ effChunkSize ⟨"x", 2, List.replicate 24 2⟩ + 16 < 2 ^ 32
      ∧ ∃ blob r r2, EncryptAEAD [4, 5] (List.replicate 32 1)
            ⟨"x", 2, List.replicate 24 2⟩ = .ok (blob, r)
        ∧ DecryptAEAD blob (List.replicate 32 1)
            ⟨"x", 2, List.replicate 24 2⟩ = .ok ([4, 5], r2)
        ∧ r.PlainSHA = sha256 [4, 5] ∧ r2.PlainSHA = sha256 [4, 5] :=
  ⟨by decide, by decide,
    C3_digest [4, 5] (List.replicate 32 1) ⟨"x", 2, List.replicate 24 2⟩
      (by decide) (by decide)⟩

/-- Claim C4: for every non-empty plaintext and every chunk size `C`
used by `EncryptAEAD` (the effective, default-substituted one), the
blob is exactly the concatenation of the length-prefixed frames of the
`C`-byte chunking in ascending index order starting at 0; there are
`ceil(n/C)` chunks, every chunk except possibly the last carries
exactly `C` bytes, no chunk is empty, and the blob length is the sum
over chunks of `4 + len + 16`. -/
theorem C4_framing (P key : List Nat) (p : AEADParams) (hP : P ≠ [])
    (hkey : key.length = 32) :
    ∃ blob r, EncryptAEAD P key p = .ok (blob, r)
      ∧ blob = encFrames key p.NBase p.ObjectID 0 (chunksOfLen (effChunkSize p) P)
      ∧ (chunksOfLen (effChunkSize p) P).length
          = (P.length + effChunkSize p - 1) / effChunkSize p
      ∧ (∀ j, j + 1 < (chunksOfLen (effChunkSize p) P).length →
          ((chunksOfLen (effChunkSize p) P).getD j []).length = effChunkSize p)
      ∧ (∀ c ∈ chunksOfLen (effChunkSize p) P, c ≠ [] ∧ c.length ≤ effChunkSize p)
      ∧ blob.length
          = ((chunksOfLen (effChunkSize p) P).map (fun c => 4 + c.length + 16)).sum :=
  ⟨_, _, EncryptAEAD_ok P key p hkey, rfl,
    chunksOfLen_length (effChunkSize_ne_zero p) P,
    fun j hj => chunksOfLen_getD_length (effChunkSize_ne_zero p) P j hj,
    fun c hc => chunksOfLen_mem (effChunkSize_ne_zero p) P c hc,
    encFrames_length key p.NBase p.ObjectID 0 _⟩

theorem C4_framing_witness :
    ([1, 2, 3] : List Nat) ≠ []
      ∧ (List.replicate 32 1 : List Nat).length = 32
      ∧ ∃ blob r, EncryptAEAD [1, 2, 3] (List.replicate 32 1)
            ⟨"x", 2, List.replicate 24 2⟩ = .ok (blob, r)
        ∧ blob = encFrames (List.replicate 32 1) (List.replicate 24 2) "x" 0
            (chunksOfLen (effChunkSize ⟨"x", 2, List.replicate 24 2⟩) [1, 2, 3])
        ∧ (chunksOfLen (effChunkSize ⟨"x", 2, List.replicate 24 2⟩) [1, 2, 3]).length
            = (([1, 2, 3] : List Nat).length + effChunkSize ⟨"x", 2, List.replicate 24 2⟩ - 1)
              / effChunkSize ⟨"x", 2, List.replicate 24 2⟩
        ∧ (∀ j, j + 1 < (chunksOfLen (effChunkSize ⟨"x", 2, List.replicate 24 2⟩) [1, 2, 3]).length →
            ((chunksOfLen (effChunkSize ⟨"x", 2, List.replicate 24 2⟩) [1, 2, 3]).getD j []).length
              = effChunkSize ⟨"x", 2, List.replicate 24 2⟩)
        ∧ (∀ c ∈ chunksOfLen (effChunkSize ⟨"x", 2, List.replicate 24 2⟩) [1, 2, 3],
            c ≠ [] ∧ c.length ≤ effChunkSize ⟨"x", 2, List.replicate 24 2⟩)
        ∧ blob.length
            = ((chunksOfLen (effChunkSize ⟨"x", 2, List.replicate 24 2⟩) [1, 2, 3]).map
                (fun c => 4 + c.length + 16)).sum :=
  ⟨by decide, by decide,
    C4_framing [1, 2, 3] (List.replicate 32 1) ⟨"x", 2, List.replicate 24 2⟩
      (by decide) (by decide)⟩

/-- The `i`-th plaintext chunk of the `EncryptAEAD` chunking. -/
def chunkAt (p : AEADParams) (P : List Nat) (i : Nat) : List Nat :=
  (chunksOfLen (effChunkSize p) P).getD i []

/-- The `i`-th sealed chunk of the `EncryptAEAD` output. -/
def sealedChunkAt (key : List Nat) (p : AEADParams) (P : List Nat) (i : Nat) :
    List Nat :=
  sealAEAD key (nonceFor p.NBase i) (buildAAD p.ObjectID i (chunkAt p P i).length)
    (chunkAt p P i)

/-- The frames of the `EncryptAEAD` output before chunk `i`. -/
def blobPrefix (key : List Nat) (p : AEADParams) (P : List Nat) (i : Nat) :
    List Nat :=
  encFrames key p.NBase p.ObjectID 0 ((chunksOfLen (effChunkSize p) P).take i)

/-- The frames of the `EncryptAEAD` output after chunk `i`. -/
def blobSuffix (key : List Nat) (p : AEADParams) (P : List Nat) (i : Nat) :
    List Nat :=
  encFrames key p.NBase p.ObjectID (i + 1) ((chunksOfLen (effChunkSize p) P).drop (i + 1))

/-- The `EncryptAEAD` output decomposes around any chunk index `i` as
`prefix ++ (length header ++ sealed chunk i) ++ suffix`. -/
theorem EncryptAEAD_frame_decomp (P key : List Nat) (p : AEADParams) (i : Nat)
    (hkey : key.length = 32)
    (hi : i < (chunksOfLen (effChunkSize p) P).length) :
    EncryptAEAD P key p
      = .ok (blobPrefix key p P i
        ++ (leEnc 4 (sealedChunkAt key p P i).length ++ sealedChunkAt key p P i)
        ++ blobSuffix key p P i,
        ⟨encParams p, key, sha256 P, P.length⟩) := by
  have htlen : ((chunksOfLen (effChunkSize p) P).take i).length = i := by
    rw [List.length_take]
    omega
  have hdecomp : chunksOfLen (effChunkSize p) P
      = (chunksOfLen (effChunkSize p) P).take i
        ++ chunkAt p P i :: (chunksOfLen (effChunkSize p) P).drop (i + 1) :=
    list_decomp_at hi
  rw [EncryptAEAD_ok P key p hkey]
  conv_lhs => rw [hdecomp]
  rw [encFrames_append, htlen, Nat.zero_add, encFrames, frameBytes]
  rw [blobPrefix, sealedChunkAt, chunkAt, blobSuffix]
  simp only [List.append_assoc]

/-- Claim C5: the blob produced by `EncryptAEAD` decomposes around any
chunk index `i` as `prefix ++ (header ++ sealed chunk) ++ suffix`; and
for every single-bit modification of that chunk's ciphertext-with-tag,
`DecryptAEAD` under the original key and params fails, and the returned
error carries exactly the index `i` of the chunk that failed
authentication.  (Params are constrained so each frame's ciphertext
length fits the 32-bit header, as `NewAEADParams` guarantees; the bit
flip is exact in the AEAD model, which idealizes Poly1305's
overwhelming-probability rejection.) -/
theorem C5_tamper (P key : List Nat) (p : AEADParams) (i q t : Nat)
    (hkey : key.length = 32) (hC : effChunkSize p + 16 < 2 ^ 32)
    (hi : i < (chunksOfLen (effChunkSize p) P).length)
    (hq : q < (chunkAt p P i).length + 16) (ht : t < 8) :
    (∃ r, EncryptAEAD P key p
        = .ok (blobPrefix key p P i
          ++ (leEnc 4 (sealedChunkAt key p P i).length ++ sealedChunkAt key p P i)
          ++ blobSuffix key p P i, r))
      ∧ DecryptAEAD
          (blobPrefix key p P i
            ++ (leEnc 4 (sealedChunkAt key p P i).length
              ++ flipByteAt (sealedChunkAt key p P i) q t)
            ++ blobSuffix key p P i) key p
        = .error (.authFail i) := by
  have hCne := effChunkSize_ne_zero p
  have hmem : (chunksOfLen (effChunkSize p) P).getD i []
      ∈ chunksOfLen (effChunkSize p) P := by
    rw [List.getD_eq_getElem _ _ hi]
    exact List.getElem_mem _
  have hci : (chunkAt p P i).length + 16 < 2 ^ 32 := by
    have := (chunksOfLen_mem hCne P _ hmem).2
    rw [chunkAt]
    omega
  have htlen : ((chunksOfLen (effChunkSize p) P).take i).length = i := by
    rw [List.length_take]
    omega
  have hseal : (sealedChunkAt key p P i).length = (chunkAt p P i).length + 16 := by
    rw [sealedChunkAt, sealAEAD_length]
  constructor
  · exact ⟨_, EncryptAEAD_frame_decomp P key p i hkey hi⟩
  · rw [DecryptAEAD, if_neg (by simp [hkey])]
    have hbound : ∀ c ∈ (chunksOfLen (effChunkSize p) P).take i,
        c.length + 16 < 2 ^ 32 := by
      intro c hc
      have := (chunksOfLen_mem hCne P c (List.take_subset i _ hc)).2
      omega
    rw [blobPrefix, List.append_assoc, List.append_assoc]
    rw [decryptChunks_frames key p.NBase p.ObjectID _ 0
      (leEnc 4 (sealedChunkAt key p P i).length
        ++ (flipByteAt (sealedChunkAt key p P i) q t ++ blobSuffix key p P i))
      hbound, htlen, Nat.zero_add]
    rw [hseal]
    have hflip : (flipByteAt (sealedChunkAt key p P i) q t).length
        = (chunkAt p P i).length + 16 := by
      rw [flipByteAt_length, hseal]
    rw [decryptChunks_step key p.NBase p.ObjectID i ((chunkAt p P i).length + 16)
      (flipByteAt (sealedChunkAt key p P i) q t ++ blobSuffix key p P i)
      (by omega) (by omega) (by rw [List.length_append, hflip]; omega)]
    rw [List.take_left' hflip]
    have haad : (chunkAt p P i).length + 16 - aeadTagSize = (chunkAt p P i).length := by
      simp only [aeadTagSize]
      omega
    rw [haad, sealedChunkAt]
    rw [openAEAD_flipByteAt key (nonceFor p.NBase i)
      (buildAAD p.ObjectID i (chunkAt p P i).length) (chunkAt p P i) q t hq]

theorem C5_tamper_witness :
    (List.replicate 32 1 : List Nat).length = 32
      ∧ effChunkSize ⟨"x", 2, List.replicate 24 2⟩ + 16 < 2 ^ 32
      ∧ 1 < (chunksOfLen (effChunkSize ⟨"x", 2, List.replicate 24 2⟩) [5, 6, 7]).length
      ∧ 0 < (chunkAt ⟨"x", 2, List.replicate 24 2⟩ [5, 6, 7] 1).length + 16
      ∧ 0 < 8
      ∧ ((∃ r, EncryptAEAD [5, 6, 7] (List.replicate 32 1) ⟨"x", 2, List.replicate 24 2⟩
            = .ok (blobPrefix (List.replicate 32 1) ⟨"x", 2, List.replicate 24 2⟩ [5, 6, 7] 1
              ++ (leEnc 4 (sealedChunkAt (List.replicate 32 1)
                    ⟨"x", 2, List.replicate 24 2⟩ [5, 6, 7] 1).length
                ++ sealedChunkAt (List.replicate 32 1)
                    ⟨"x", 2, List.replicate 24 2⟩ [5, 6, 7] 1)
              ++ blobSuffix (List.replicate 32 1) ⟨"x", 2, List.replicate 24 2⟩ [5, 6, 7] 1, r))
        ∧ DecryptAEAD
            (blobPrefix (List.replicate 32 1) ⟨"x", 2, List.replicate 24 2⟩ [5, 6, 7] 1
              ++ (leEnc 4 (sealedChunkAt (List.replicate 32 1)
                    ⟨"x", 2, List.replicate 24 2⟩ [5, 6, 7] 1).length
                ++ flipByteAt (sealedChunkAt (List.replicate 32 1)
                    ⟨"x", 2, List.replicate 24 2⟩ [5, 6, 7] 1) 0 0)
              ++ blobSuffix (List.replicate 32 1) ⟨"x", 2, List.replicate 24 2⟩ [5, 6, 7] 1)
            (List.replicate 32 1) ⟨"x", 2, List.replicate 24 2⟩
          = .error (.authFail 1)) := by
  have heval : chunksOfLen (effChunkSize ⟨"x", 2, List.replicate 24 2⟩) [5, 6, 7]
      = [[5, 6], [7]] := by
    have heff : effChunkSize ⟨"x", 2, List.replicate 24 2⟩ = 2 := by decide
    rw [heff, chunksOfLen_cons (by decide) (by decide)]
    rw [show List.drop 2 [5, 6, 7] = [7] from rfl]
    rw [chunksOfLen_cons (by decide) (by decide)]
    rw [show List.drop 2 [7] = ([] : List Nat) from rfl, chunksOfLen_nil]
    rfl
  have h3 : 1 < (chunksOfLen (effChunkSize ⟨"x", 2, List.replicate 24 2⟩) [5, 6, 7]).length := by
    rw [heval]
    decide
  have h4 : 0 < (chunkAt ⟨"x", 2, List.replicate 24 2⟩ [5, 6, 7] 1).length + 16 := by
    rw [chunkAt, heval]
    decide
  exact ⟨by decide, by decide, h3, h4, by decide,
    C5_tamper [5, 6, 7] (List.replicate 32 1) ⟨"x", 2, List.replicate 24 2⟩ 1 0 0
      (by decide) (by decide) h3 h4 (by decide)⟩

theorem buildAAD_eq (oid : String) (idx m : Nat) :
    buildAAD oid idx m
      = utf8Bytes "burrow.v1" ++ utf8Bytes oid ++ leEnc 8 idx ++ leEnc 8 m := rfl

/-- Claim C7: the 24-byte per-chunk nonce used by both `EncryptAEAD` and
`DecryptAEAD` is the first 16 bytes of `NBase` followed by the 8-byte
little-endian chunk index, indices starting at 0 and increasing by 1
per chunk; and the associated data is the ASCII tag `"burrow.v1"`, the
UTF-8 ObjectID, the LE64 index, and the LE64 plaintext length,
concatenated.  The third conjunct exhibits the construction at every
chunk `i` of the encrypt stream; the fourth shows the decrypt loop
opening a frame at index `idx` with the same nonce and AAD bytes and
recursing at `idx + 1`. -/
theorem C7_nonce_aad :
    (∀ (nb : List Nat) (idx : Nat), 16 ≤ nb.length →
        nonceFor nb idx = nb.take 16 ++ leEnc 8 idx)
      ∧ (∀ (oid : String) (idx m : Nat),
          buildAAD oid idx m
            = utf8Bytes "burrow.v1" ++ utf8Bytes oid ++ leEnc 8 idx ++ leEnc 8 m)
      ∧ (∀ (P key : List Nat) (p : AEADParams) (i : Nat),
          key.length = 32 → 16 ≤ p.NBase.length →
          i < (chunksOfLen (effChunkSize p) P).length →
          ∃ r, EncryptAEAD P key p
            = .ok (blobPrefix key p P i
              ++ (leEnc 4 (sealAEAD key (p.NBase.take 16 ++ leEnc 8 i)
                    (utf8Bytes "burrow.v1" ++ utf8Bytes p.ObjectID ++ leEnc 8 i
                      ++ leEnc 8 (chunkAt p P i).length) (chunkAt p P i)).length
                ++ sealAEAD key (p.NBase.take 16 ++ leEnc 8 i)
                    (utf8Bytes "burrow.v1" ++ utf8Bytes p.ObjectID ++ leEnc 8 i
                      ++ leEnc 8 (chunkAt p P i).length) (chunkAt p P i))
              ++ blobSuffix key p P i, r))
      ∧ (∀ (key nb : List Nat) (oid : String) (idx L : Nat) (R : List Nat),
          16 ≤ nb.length → 16 ≤ L → L < 2 ^ 32 → L ≤ R.length →
          decryptChunks key nb oid idx (leEnc 4 L ++ R)
            = match openAEAD key (nb.take 16 ++ leEnc 8 idx)
                (utf8Bytes "burrow.v1" ++ utf8Bytes oid ++ leEnc 8 idx
                  ++ leEnc 8 (L - 16)) (R.take L) with
              | none => .error (.authFail idx)
              | some pt =>
                  match decryptChunks key nb oid (idx + 1) (R.drop L) with
                  | .error e => .error e
                  | .ok tail => .ok (pt ++ tail)) := by
  refine ⟨fun nb idx hnb => nonceFor_eq idx hnb, fun oid idx m => buildAAD_eq oid idx m,
    ?_, ?_⟩
  · intro P key p i hkey hnb hi
    refine ⟨⟨encParams p, key, sha256 P, P.length⟩, ?_⟩
    rw [EncryptAEAD_frame_decomp P key p i hkey hi, sealedChunkAt,
      nonceFor_eq i hnb, buildAAD_eq]
  · intro key nb oid idx L R hnb hL16 hL32 hR
    rw [decryptChunks_step key nb oid idx L R hL16 hL32 hR, nonceFor_eq idx hnb,
      buildAAD_eq]
    rfl

theorem C7_nonce_aad_witness :
    (16 ≤ (List.replicate 24 2 : List Nat).length
      ∧ nonceFor (List.replicate 24 2) 3
        = (List.replicate 24 2 : List Nat).take 16 ++ leEnc 8 3)
      ∧ (buildAAD "x" 3 5
        = utf8Bytes "burrow.v1" ++ utf8Bytes "x" ++ leEnc 8 3 ++ leEnc 8 5)
      ∧ (∃ r, EncryptAEAD [9] (List.replicate 32 1) ⟨"x", 2, List.replicate 24 2⟩
          = .ok (blobPrefix (List.replicate 32 1) ⟨"x", 2, List.replicate 24 2⟩ [9] 0
            ++ (leEnc 4 (sealAEAD (List.replicate 32 1)
                  ((⟨"x", 2, List.replicate 24 2⟩ : AEADParams).NBase.take 16 ++ leEnc 8 0)
                  (utf8Bytes "burrow.v1" ++ utf8Bytes "x" ++ leEnc 8 0
                    ++ leEnc 8 (chunkAt ⟨"x", 2, List.replicate 24 2⟩ [9] 0).length)
                  (chunkAt ⟨"x", 2, List.replicate 24 2⟩ [9] 0)).length
              ++ sealAEAD (List.replicate 32 1)
                  ((⟨"x", 2, List.replicate 24 2⟩ : AEADParams).NBase.take 16 ++ leEnc 8 0)
                  (utf8Bytes "burrow.v1" ++ utf8Bytes "x" ++ leEnc 8 0
                    ++ leEnc 8 (chunkAt ⟨"x", 2, List.replicate 24 2⟩ [9] 0).length)
                  (chunkAt ⟨"x", 2, List.replicate 24 2⟩ [9] 0))
            ++ blobSuffix (List.replicate 32 1) ⟨"x", 2, List.replicate 24 2⟩ [9] 0, r))
      ∧ (decryptChunks (List.replicate 32 1) (List.replicate 24 2) "x" 0
            (leEnc 4 16 ++ List.replicate 16 0)
          = match openAEAD (List.replicate 32 1)
              ((List.replicate 24 2 : List Nat).take 16 ++ leEnc 8 0)
              (utf8Bytes "burrow.v1" ++ utf8Bytes "x" ++ leEnc 8 0
                ++ leEnc 8 (16 - 16)) ((List.replicate 16 0 : List Nat).take 16) with
            | none => .error (.authFail 0)
            | some pt =>
                match decryptChunks (List.replicate 32 1) (List.replicate 24 2) "x" 1
                  ((List.replicate 16 0 : List Nat).drop 16) with
                | .error e => .error e
                | .ok tail => .ok (pt ++ tail)) := by
  have h0 : 0 < (chunksOfLen (effChunkSize ⟨"x", 2, List.replicate 24 2⟩) [9]).length := by
    have heff : effChunkSize ⟨"x", 2, List.replicate 24 2⟩ = 2 := by decide
    rw [heff, chunksOfLen_cons (by decide) (by decide)]
    simp
  exact ⟨⟨by decide, C7_nonce_aad.1 (List.replicate 24 2) 3 (by decide)⟩,
    C7_nonce_aad.2.1 "x" 3 5,
    C7_nonce_aad.2.2.1 [9] (List.replicate 32 1) ⟨"x", 2, List.replicate 24 2⟩ 0
      (by decide) (by decide) h0,
    C7_nonce_aad.2.2.2 (List.replicate 32 1) (List.replicate 24 2) "x" 0 16
      (List.replicate 16 0) (by decide) (by decide) (by decide) (by decide)⟩

/-- Claim C8: `DecryptAEAD` never reads the `ChunkSize` field.  For any
two params differing only in `ChunkSize`, decryption of any input
stream has the same success/failure outcome, and on success produces
identical plaintext output, `PlainSHA` and `TotalPlain` (the echoed
`Params` field is the only difference in the results). -/
theorem C8_chunkSize_independent (src key : List Nat) (p1 p2 : AEADParams)
    (hoid : p1.ObjectID = p2.ObjectID) (hnb : p1.NBase = p2.NBase) :
    ((DecryptAEAD src key p1).map (fun x => (x.1, x.2.PlainSHA, x.2.TotalPlain))
        = (DecryptAEAD src key p2).map (fun x => (x.1, x.2.PlainSHA, x.2.TotalPlain)))
      ∧ (∀ e, DecryptAEAD src key p1 = .error e ↔ DecryptAEAD src key p2 = .error e)
      ∧ (∀ out r1, DecryptAEAD src key p1 = .ok (out, r1) →
          ∃ r2, DecryptAEAD src key p2 = .ok (out, r2)
            ∧ r1.PlainSHA = r2.PlainSHA ∧ r1.TotalPlain = r2.TotalPlain) := by
  have hcore : decryptChunks key p1.NBase p1.ObjectID 0 src
      = decryptChunks key p2.NBase p2.ObjectID 0 src := by
    rw [hoid, hnb]
  rw [DecryptAEAD, DecryptAEAD, hcore]
  by_cases hk : key.length ≠ 32
  · rw [if_pos hk, if_pos hk]
    exact ⟨rfl, fun e => Iff.rfl, fun out r1 h => absurd h (by simp)⟩
  · rw [if_neg hk, if_neg hk]
    cases hc : decryptChunks key p2.NBase p2.ObjectID 0 src with
    | error e =>
        exact ⟨rfl, fun e2 => Iff.rfl, fun out r1 h => absurd h (by simp)⟩
    | ok out =>
        refine ⟨rfl, fun e2 => by simp, ?_⟩
        intro out2 r1 h
        simp only [Except.ok.injEq, Prod.mk.injEq] at h
        obtain ⟨h1, h2⟩ := h
        subst h1
        subst h2
        exact ⟨⟨p2, key, sha256 out, out.length⟩, rfl, rfl, rfl⟩

theorem C8_chunkSize_independent_witness :
    (⟨"x", 2, List.replicate 24 2⟩ : AEADParams).ObjectID
        = (⟨"x", 7, List.replicate 24 2⟩ : AEADParams).ObjectID
      ∧ (⟨"x", 2, List.replicate 24 2⟩ : AEADParams).NBase
        = (⟨"x", 7, List.replicate 24 2⟩ : AEADParams).NBase
      ∧ (((DecryptAEAD [1, 0, 0, 0, 9] (List.replicate 32 1)
            ⟨"x", 2, List.replicate 24 2⟩).map
              (fun x => (x.1, x.2.PlainSHA, x.2.TotalPlain))
          = (DecryptAEAD [1, 0, 0, 0, 9] (List.replicate 32 1)
            ⟨"x", 7, List.replicate 24 2⟩).map
              (fun x => (x.1, x.2.PlainSHA, x.2.TotalPlain)))
        ∧ (∀ e, DecryptAEAD [1, 0, 0, 0, 9] (List.replicate 32 1)
              ⟨"x", 2, List.replicate 24 2⟩ = .error e
            ↔ DecryptAEAD [1, 0, 0, 0, 9] (List.replicate 32 1)
              ⟨"x", 7, List.replicate 24 2⟩ = .error e)
        ∧ (∀ out r1, DecryptAEAD [1, 0, 0, 0, 9] (List.replicate 32 1)
              ⟨"x", 2, List.replicate 24 2⟩ = .ok (out, r1) →
            ∃ r2, DecryptAEAD [1, 0, 0, 0, 9] (List.replicate 32 1)
                ⟨"x", 7, List.replicate 24 2⟩ = .ok (out, r2)
              ∧ r1.PlainSHA = r2.PlainSHA ∧ r1.TotalPlain = r2.TotalPlain)) :=
  ⟨by decide, by decide,
    C8_chunkSize_independent [1, 0, 0, 0, 9] (List.replicate 32 1)
      ⟨"x", 2, List.replicate 24 2⟩ ⟨"x", 7, List.replicate 24 2⟩
      (by decide) (by decide)⟩

/-- Claim C9: `EncryptAEAD` itself does not enforce the
`[32 KiB, 64 MiB]` chunk-size range.  For `ChunkSize ≤ 0` it silently
substitutes the 4 MiB default (same output as with the default, and the
echoed params carry the default).  For any positive `ChunkSize` — even
one outside the documented range, such as 1 — it encrypts using that
value as-is and echoes the params unchanged.  The range check lives
only in `NewAEADParams`, which rejects positive out-of-range values. -/
theorem C9_no_range_check_in_encrypt :
    (∀ (src key : List Nat) (p : AEADParams), p.ChunkSize ≤ 0 →
        EncryptAEAD src key p
            = EncryptAEAD src key { p with ChunkSize := AEADDefaultChunkSize }
          ∧ effChunkSize p = (4 * 2 ^ 20 : Int).toNat)
      ∧ (∀ (src key : List Nat) (p : AEADParams), 0 < p.ChunkSize →
          key.length = 32 →
          ∃ blob r, EncryptAEAD src key p = .ok (blob, r)
            ∧ blob = encFrames key p.NBase p.ObjectID 0
                (chunksOfLen p.ChunkSize.toNat src)
            ∧ r.Params = p)
      ∧ (∀ (oid : String) (cs : Int) (entropy : List Nat), oid ≠ "" → 0 < cs →
          (cs < 32 * 2 ^ 10 ∨ 64 * 2 ^ 20 < cs) →
          NewAEADParams oid cs entropy = .error .invalidChunkSize) := by
  refine ⟨?_, ?_, ?_⟩
  · intro src key p hcs
    have hpos : ¬({ p with ChunkSize := AEADDefaultChunkSize } : AEADParams).ChunkSize ≤ 0 := by
      show ¬(AEADDefaultChunkSize ≤ 0)
      rw [AEADDefaultChunkSize]
      omega
    have hparams : encParams p = encParams { p with ChunkSize := AEADDefaultChunkSize } := by
      rw [encParams, encParams, if_pos hcs, if_neg hpos]
    have heff : effChunkSize p = effChunkSize { p with ChunkSize := AEADDefaultChunkSize } := by
      rw [effChunkSize, effChunkSize, hparams]
    constructor
    · rw [EncryptAEAD, EncryptAEAD, hparams, heff]
    · rw [heff, effChunkSize, encParams, if_neg hpos]
      rfl
  · intro src key p hcs hkey
    have hparams : encParams p = p := by
      rw [encParams, if_neg (by omega)]
    refine ⟨_, _, EncryptAEAD_ok src key p hkey, ?_, ?_⟩
    · rw [effChunkSize, hparams]
    · rw [hparams]
  · intro oid cs entropy hoid hcs hrange
    rw [NewAEADParams, if_neg hoid]
    have hd : (if cs ≤ 0 then AEADDefaultChunkSize else cs) = cs := by
      rw [if_neg (by omega)]
    rw [hd, if_pos (by rw [aeadMaxChunkSize]; omega)]

theorem C9_no_range_check_in_encrypt_witness :
    ((⟨"x", -1, List.replicate 24 2⟩ : AEADParams).ChunkSize ≤ 0
      ∧ EncryptAEAD [1] (List.replicate 32 1) ⟨"x", -1, List.replicate 24 2⟩
          = EncryptAEAD [1] (List.replicate 32 1)
            { (⟨"x", -1, List.replicate 24 2⟩ : AEADParams) with
              ChunkSize := AEADDefaultChunkSize }
      ∧ effChunkSize ⟨"x", -1, List.replicate 24 2⟩ = (4 * 2 ^ 20 : Int).toNat)
      ∧ (0 < (⟨"x", 1, List.replicate 24 2⟩ : AEADParams).ChunkSize
        ∧ (List.replicate 32 1 : List Nat).length = 32
        ∧ ∃ blob r, EncryptAEAD [1, 2] (List.replicate 32 1)
              ⟨"x", 1, List.replicate 24 2⟩ = .ok (blob, r)
            ∧ blob = encFrames (List.replicate 32 1) (List.replicate 24 2) "x" 0
                (chunksOfLen ((1 : Int)).toNat [1, 2])
            ∧ r.Params = ⟨"x", 1, List.replicate 24 2⟩)
      ∧ (("x" : String) ≠ "" ∧ (0 : Int) < 1 ∧ ((1 : Int) < 32 * 2 ^ 10 ∨ 64 * 2 ^ 20 < (1 : Int))
        ∧ NewAEADParams "x" 1 (List.replicate 24 2) = .error .invalidChunkSize) := by
  have h1 := (C9_no_range_check_in_encrypt.1 [1] (List.replicate 32 1)
    ⟨"x", -1, List.replicate 24 2⟩ (by decide))
  have h2 := (C9_no_range_check_in_encrypt.2.1 [1, 2] (List.replicate 32 1)
    ⟨"x", 1, List.replicate 24 2⟩ (by decide) (by decide))
  have h3 := (C9_no_range_check_in_encrypt.2.2 "x" 1 (List.replicate 24 2)
    (by decide) (by decide) (by decide))
  exact ⟨⟨by decide, h1.1, h1.2⟩, ⟨by decide, by decide, h2⟩,
    ⟨by decide, by decide, by decide, h3⟩⟩

/-- Claim C2 (evidence of the divergence): `Envelope.Open` returns
whatever envelope the age decryption and JSON unmarshalling produce,
with no inspection of the `Version` field — an envelope whose version
is `"burrow.9.9"` (or anything else) is accepted, so the download
proceeds to the bulk object instead of failing with an
unsupported-version error. -/
theorem envelope_open_ignores_version
    (ageDecrypt : List Nat → Except String (List Nat))
    (jsonUnmarshal : List Nat → Except String Envelope)
    (cipher b : List Nat) (env : Envelope)
    (hdec : ageDecrypt cipher = .ok b)
    (hjson : jsonUnmarshal b = .ok env) :
    envelopeOpen ageDecrypt jsonUnmarshal cipher = .ok env := by
  rw [envelopeOpen, hdec]
  exact hjson

theorem envelope_open_ignores_version_witness :
    ((fun _ : List Nat => (.ok [7] : Except String (List Nat))) [1] = .ok [7])
      ∧ ((fun _ : List Nat =>
          (.ok ⟨"burrow.9.9", "obj", ⟨"x", 2, List.replicate 24 0⟩, [], "none", [],
            "f"⟩ : Except String Envelope)) [7]
        = .ok ⟨"burrow.9.9", "obj", ⟨"x", 2, List.replicate 24 0⟩, [], "none", [], "f"⟩)
      ∧ envelopeOpen (fun _ => .ok [7])
          (fun _ => .ok ⟨"burrow.9.9", "obj", ⟨"x", 2, List.replicate 24 0⟩, [],
            "none", [], "f"⟩) [1]
        = .ok ⟨"burrow.9.9", "obj", ⟨"x", 2, List.replicate 24 0⟩, [], "none", [], "f"⟩ :=
  ⟨rfl, rfl,
    envelope_open_ignores_version (fun _ => .ok [7])
      (fun _ => .ok ⟨"burrow.9.9", "obj", ⟨"x", 2, List.replicate 24 0⟩, [], "none", [], "f"⟩)
      [1] [7] _ rfl rfl⟩

/-- Claim C10: the download decompress stage treats an empty compression
mode exactly like `"none"` — a byte-for-byte pass-through of its input —
and fails with an unsupported-compression-mode error for every mode
other than `"none"`, `"zstd"` and `""`. -/
theorem C10_decompress_modes :
    (∀ (zstdDecode : List Nat → Except String (List Nat)) (input : List Nat),
        decompressStage zstdDecode "" input = .ok input
          ∧ decompressStage zstdDecode "none" input = .ok input)
      ∧ (∀ (zstdDecode : List Nat → Except String (List Nat)) (input : List Nat)
          (mode : String), mode ≠ "none" → mode ≠ "zstd" → mode ≠ "" →
          decompressStage zstdDecode mode input
            = .error ("unsupported compression mode: " ++ mode)) := by
  constructor
  · intro zd input
    constructor
    · rw [decompressStage, if_pos (Or.inr (show ("" : String) = "" from rfl))]
    · rw [decompressStage, if_pos (Or.inl (show ("none" : String) = CompressNone from rfl))]
  · intro zd input mode h1 h2 h3
    rw [decompressStage, if_neg (fun h => h.elim h1 h3),
      if_neg (show ¬mode = CompressZstd from h2)]

theorem C10_decompress_modes_witness :
    ((decompressStage (fun _ => .ok []) "" [3, 4] = .ok [3, 4]
        ∧ decompressStage (fun _ => .ok []) "none" [3, 4] = .ok [3, 4]))
      ∧ (("gzip" : String) ≠ "none" ∧ ("gzip" : String) ≠ "zstd"
        ∧ ("gzip" : String) ≠ ""
        ∧ decompressStage (fun _ => .ok []) "gzip" [3, 4]
          = .error ("unsupported compression mode: " ++ "gzip")) :=
  ⟨C10_decompress_modes.1 (fun _ => .ok []) [3, 4],
    ⟨by decide, by decide, by decide,
      C10_decompress_modes.2 (fun _ => .ok []) [3, 4] "gzip"
        (by decide) (by decide) (by decide)⟩⟩

theorem autoFold_decided_zstd (zc : List Nat → List Nat) (m : ℚ) (S : Nat)
    (ws : List (List Nat)) :
    ∀ (buf zin out : List Nat) (inN : Nat) (info : CompressInfo),
      ws.foldl (autoWrite zc m S) ⟨true, true, buf, zin, out, inN, info⟩
        = ⟨true, true, buf, zin ++ ws.flatten, out, inN + ws.flatten.length, info⟩ := by
  induction ws with
  | nil =>
      intro buf zin out inN info
      simp [List.flatten_nil]
  | cons w ws ih =>
      intro buf zin out inN info
      rw [List.foldl_cons]
      rw [show autoWrite zc m S ⟨true, true, buf, zin, out, inN, info⟩ w
          = ⟨true, true, buf, zin ++ w, out, inN + w.length, info⟩ from rfl]
      rw [ih, List.flatten_cons]
      simp [List.append_assoc, List.length_append]
      omega

theorem autoFold_decided_pass (zc : List Nat → List Nat) (m : ℚ) (S : Nat)
    (ws : List (List Nat)) :
    ∀ (buf zin out : List Nat) (inN : Nat) (info : CompressInfo),
      ws.foldl (autoWrite zc m S) ⟨true, false, buf, zin, out, inN, info⟩
        = ⟨true, false, buf, zin, out ++ ws.flatten, inN + ws.flatten.length, info⟩ := by
  induction ws with
  | nil =>
      intro buf zin out inN info
      simp [List.flatten_nil]
  | cons w ws ih =>
      intro buf zin out inN info
      rw [List.foldl_cons]
      rw [show autoWrite zc m S ⟨true, false, buf, zin, out, inN, info⟩ w
          = ⟨true, false, buf, zin, out ++ w, inN + w.length, info⟩ from rfl]
      rw [ih, List.flatten_cons]
      simp [List.append_assoc, List.length_append]
      omega

theorem autoFold_run (zc : List Nat → List Nat) (m : ℚ) (S : Nat) (hS : S ≠ 0)
    (ws : List (List Nat)) :
    ∀ (b : List Nat) (inN0 : Nat) (info : CompressInfo),
      b.length < S → b ++ ws.flatten ≠ [] →
      ((autoClose zc m (ws.foldl (autoWrite zc m S)
            ⟨false, false, b, [], [], inN0, info⟩)).1
          = (if m ≤ 1 - ((zc (b ++ (sampleSplit (S - b.length) ws).1.flatten)).length : ℚ)
                / ((b ++ (sampleSplit (S - b.length) ws).1.flatten).length : ℚ)
            then zc ((b ++ (sampleSplit (S - b.length) ws).1.flatten)
              ++ (sampleSplit (S - b.length) ws).2.flatten)
            else (b ++ (sampleSplit (S - b.length) ws).1.flatten)
              ++ (sampleSplit (S - b.length) ws).2.flatten))
        ∧ ((autoClose zc m (ws.foldl (autoWrite zc m S)
            ⟨false, false, b, [], [], inN0, info⟩)).2.ModeUsed
          = if m ≤ 1 - ((zc (b ++ (sampleSplit (S - b.length) ws).1.flatten)).length : ℚ)
                / ((b ++ (sampleSplit (S - b.length) ws).1.flatten).length : ℚ)
            then CompressZstd else CompressNone) := by
  induction ws with
  | nil =>
      intro b inN0 info hb hne
      have hbne : b ≠ [] := by
        intro h
        rw [h] at hne
        exact hne (by simp)
      have hlen : 0 < b.length := List.length_pos.mpr hbne
      simp only [List.foldl_nil, sampleSplit, List.flatten_nil, List.append_nil]
      by_cases hd : m ≤ 1 - ((zc b).length : ℚ) / (b.length : ℚ)
      · constructor <;> simp [autoClose, decideAndFlush, hlen, hd]
      · constructor <;> simp [autoClose, decideAndFlush, hlen, hd]
  | cons w ws ih =>
      intro b inN0 info hb hne
      rw [List.foldl_cons]
      rw [show autoWrite zc m S ⟨false, false, b, [], [], inN0, info⟩ w
          = if S ≤ (b ++ w).length then
              decideAndFlush zc m ⟨false, false, b ++ w, [], [], inN0 + w.length, info⟩
            else ⟨false, false, b ++ w, [], [], inN0 + w.length, info⟩ from rfl]
      by_cases hreach : S ≤ (b ++ w).length
      · rw [if_pos hreach]
        have hlen2 : 0 < (b ++ w).length := by
          have := Nat.pos_of_ne_zero hS
          omega
        have hno : S - b.length ≤ w.length := by
          rw [List.length_append] at hreach
          omega
        have hsplit : sampleSplit (S - b.length) (w :: ws) = ([w], ws) := by
          rw [sampleSplit, if_pos hno]
        rw [hsplit]
        rw [show decideAndFlush zc m ⟨false, false, b ++ w, [], [], inN0 + w.length, info⟩
            = (if m ≤ (if 0 < (b ++ w).length then
                  1 - ((zc (b ++ w)).length : ℚ) / (((b ++ w).length : Nat) : ℚ) else -1)
              then ⟨true, true, [], b ++ w, [], inN0 + w.length,
                { info with
                  SampledBytes := (b ++ w).length
                  EstimatedSavings := if 0 < (b ++ w).length then
                    1 - ((zc (b ++ w)).length : ℚ) / (((b ++ w).length : Nat) : ℚ) else -1
                  ModeUsed := CompressZstd
                  Decided := true }⟩
              else ⟨true, false, [], [], [] ++ (b ++ w), inN0 + w.length,
                { info with
                  SampledBytes := (b ++ w).length
                  EstimatedSavings := if 0 < (b ++ w).length then
                    1 - ((zc (b ++ w)).length : ℚ) / (((b ++ w).length : Nat) : ℚ) else -1
                  ModeUsed := CompressNone
                  Decided := true }⟩) from rfl]
        rw [if_pos hlen2]
        by_cases hd : m ≤ 1 - ((zc (b ++ w)).length : ℚ) / ((b ++ w).length : ℚ)
        · have hd' : m ≤ 1 - ((zc (b ++ w)).length : ℚ)
              / ((b.length : ℚ) + (w.length : ℚ)) := by
            rw [List.length_append, Nat.cast_add] at hd
            exact hd
          rw [if_pos hd, autoFold_decided_zstd zc m S ws]
          constructor
          · simp [autoClose, hd', List.append_assoc]
          · simp [autoClose, hd']
        · have hd' : ¬m ≤ 1 - ((zc (b ++ w)).length : ℚ)
              / ((b.length : ℚ) + (w.length : ℚ)) := by
            rw [List.length_append, Nat.cast_add] at hd
            exact hd
          rw [if_neg hd, autoFold_decided_pass zc m S ws]
          constructor
          · simp [autoClose, hd', List.append_assoc]
          · simp [autoClose, hd']
      · rw [if_neg hreach]
        have hno : ¬S - b.length ≤ w.length := by
          rw [List.length_append] at hreach
          omega
        have hsplit : sampleSplit (S - b.length) (w :: ws)
            = (w :: (sampleSplit (S - b.length - w.length) ws).1,
              (sampleSplit (S - b.length - w.length) ws).2) := by
          rw [sampleSplit, if_neg hno]
        have hblen : (b ++ w).length < S := by
          rw [List.length_append]
          rw [List.length_append] at hreach
          omega
        have hnew : (b ++ w) ++ ws.flatten ≠ [] := by
          intro h
          apply hne
          rw [List.flatten_cons, ← List.append_assoc]
          exact h
        have ih' := ih (b ++ w) (inN0 + w.length) info hblen hnew
        rw [List.length_append, ← Nat.sub_sub] at ih'
        rw [hsplit]
        simp only [List.flatten_cons, ← List.append_assoc]
        exact ih'

theorem effSampleBytes_pos (cfg : CompressorConfig) : 0 < effSampleBytes cfg := by
  unfold effSampleBytes
  split <;> omega

/-- Claim C6: in auto mode, with the buffered sample being the writes
accumulated until the sample buffer first reaches `SampleBytes` (or the
whole stream when `Close` comes first), the compressor commits to zstd
iff `1 - |zc sample| / |sample| ≥ AutoMinSaving` (with the defaulted
threshold), and the emitted bytes are the sample followed by all
subsequent writes through the chosen path: `zc (sample ++ rest)` when
zstd is committed, `sample ++ rest` otherwise. -/
theorem C6_auto_decision (zc : List Nat → List Nat) (cfg : CompressorConfig)
    (writes : List (List Nat)) (hne : writes.flatten ≠ []) :
    ((autoRun zc cfg writes).2.ModeUsed
        = if effAutoMinSaving cfg
              ≤ 1 - ((zc (sampleSplit (effSampleBytes cfg) writes).1.flatten).length : ℚ)
                / (((sampleSplit (effSampleBytes cfg) writes).1.flatten).length : ℚ)
          then CompressZstd else CompressNone)
      ∧ (autoRun zc cfg writes).1
        = (if effAutoMinSaving cfg
              ≤ 1 - ((zc (sampleSplit (effSampleBytes cfg) writes).1.flatten).length : ℚ)
                / (((sampleSplit (effSampleBytes cfg) writes).1.flatten).length : ℚ)
          then zc ((sampleSplit (effSampleBytes cfg) writes).1.flatten
            ++ (sampleSplit (effSampleBytes cfg) writes).2.flatten)
          else (sampleSplit (effSampleBytes cfg) writes).1.flatten
            ++ (sampleSplit (effSampleBytes cfg) writes).2.flatten) := by
  have h := autoFold_run zc (effAutoMinSaving cfg) (effSampleBytes cfg)
    (effSampleBytes_pos cfg).ne' writes [] 0
    ⟨cfg.Mode, cfg.Mode, -1, -1, 0, 0, 0, false⟩
    (by simpa using effSampleBytes_pos cfg)
    (by simpa using hne)
  simp only [List.length_nil, Nat.sub_zero, List.nil_append] at h
  exact ⟨h.2, h.1⟩

theorem C6_auto_decision_witness :
    ([[1, 2, 3]] : List (List Nat)).flatten ≠ []
      ∧ (autoRun (fun _ => ([] : List Nat)) ⟨"auto", 3, 1/20, 2⟩ [[1, 2, 3]]).2.ModeUsed
          = CompressZstd
      ∧ (autoRun (fun _ => ([] : List Nat)) ⟨"auto", 3, 1/20, 2⟩ [[1, 2, 3]]).1 = [] := by
  have h := C6_auto_decision (fun _ => ([] : List Nat)) ⟨"auto", 3, 1/20, 2⟩ [[1, 2, 3]]
    (by decide)
  have e1 : (sampleSplit (effSampleBytes ⟨"auto", 3, 1/20, 2⟩) [[1, 2, 3]]).1.flatten
      = [1, 2, 3] := by decide
  have e2 : (sampleSplit (effSampleBytes ⟨"auto", 3, 1/20, 2⟩) [[1, 2, 3]]).2.flatten
      = [] := by decide
  rw [e1, e2] at h
  have hcond : effAutoMinSaving ⟨"auto", 3, 1/20, 2⟩
      ≤ 1 - ((([] : List Nat)).length : ℚ) / (([1, 2, 3] : List Nat).length : ℚ) := by
    norm_num [effAutoMinSaving]
  refine ⟨by decide, ?_, ?_⟩
  · rw [h.1, if_pos hcond]
  · rw [h.2, if_pos hcond]
